import Mathlib

/-!
Verification of the transcription-diff tool (`tools/diff/__init__.py`) and the
CC-CEDICT converter (`tools/mandarin.py`) of the Tatoeba/sinoparserd
repository.

Text is modelled as `List Char`.  The diff tool builds on Python's standard
`difflib.SequenceMatcher`, always constructed with `isjunk = None`; that
matcher is embedded faithfully below (the two junk-extension loops of
`find_longest_match` are omitted because the junk set is empty at every call
site, and `b2j` is given extensionally: position lists of non-popular
elements).
-/

/-- Python text, one `Char` per code point. -/
abbrev Str := List Char

/-- Python slice `s[i:j]` for natural `i`, `j` (clamping, empty when `j ≤ i`). -/
def pySlice (s : Str) (i j : Nat) : Str := (s.drop i).take (j - i)

namespace Difflib

/-- The autojunk "popular" test of `SequenceMatcher.__chain_b` (no junk
parameter): an element is popular when `len(b) >= 200` and it occurs more
than `len(b) // 100 + 1` times in `b`. -/
def popular (b : Str) (c : Char) : Bool :=
  decide (200 ≤ b.length) && decide (b.length / 100 + 1 < b.count c)

/-- The `b2j` dict of `SequenceMatcher.__chain_b` with `isjunk = None`:
for each element the ascending list of its positions in `b`, with popular
elements removed. -/
def b2j (b : Str) (c : Char) : List Nat :=
  if popular b c then []
  else (List.range b.length).filter fun j => b.getD j ' ' == c

/-- Lookup in the association list modelling the `j2len` dict
(`j2len.get(k, 0)`). -/
def lookupD (m : List (Nat × Nat)) (k : Nat) : Nat :=
  match m.find? fun p => p.1 == k with
  | some p => p.2
  | none => 0

/-- The running `(besti, bestj, bestsize)` of `find_longest_match`. -/
structure Best where
  besti : Nat
  bestj : Nat
  bestsize : Nat
deriving Repr, DecidableEq

/-- Inner loop of `find_longest_match` over `b2j.get(a[i], [])`, including the
`continue` (`j < blo`) and `break` (`j >= bhi`).  `j2len` is the previous
row's table; the new row's table is accumulated in `new`.  The Python key
`j - 1 = -1` is absent from the dict, hence the explicit `j = 0` case.
In every reachable state `k ≤ i + 1` and `k ≤ j + 1`, so the truncated
subtractions below agree with Python's `i-k+1` and `j-k+1`. -/
def chainRow (blo bhi i : Nat) :
    List Nat → List (Nat × Nat) → List (Nat × Nat) → Best → List (Nat × Nat) × Best
  | [], _, new, best => (new, best)
  | j :: js, j2len, new, best =>
    if j < blo then chainRow blo bhi i js j2len new best
    else if bhi ≤ j then (new, best)
    else
      let k := (if j = 0 then 0 else lookupD j2len (j - 1)) + 1
      let best' := if best.bestsize < k then ⟨i + 1 - k, j + 1 - k, k⟩ else best
      chainRow blo bhi i js j2len ((j, k) :: new) best'

/-- Outer loop of the matching phase of `find_longest_match`, over the rows
`i ∈ range(alo, ahi)`. -/
def chainRows (a b : Str) (blo bhi : Nat) : List Nat → List (Nat × Nat) → Best → Best
  | [], _, best => best
  | i :: rows, j2len, best =>
    let step := chainRow blo bhi i (b2j b (a.getD i ' ')) j2len [] best
    chainRows a b blo bhi rows step.1 step.2

/-- First extension loop of `find_longest_match` (the junk set is empty, so
`not isbjunk(...)` always holds).  Structural recursion on `besti`, which the
loop decrements; at `besti = 0` the guard `alo < besti` is false, matching the
source. -/
def extendLeft (a b : Str) (alo blo : Nat) : Nat → Nat → Nat → Nat × Nat × Nat
  | 0, bestj, bestsize => (0, bestj, bestsize)
  | besti + 1, bestj, bestsize =>
    if alo < besti + 1 ∧ blo < bestj ∧ a.getD besti ' ' = b.getD (bestj - 1) ' ' then
      extendLeft a b alo blo besti (bestj - 1) (bestsize + 1)
    else (besti + 1, bestj, bestsize)

/-- Second extension loop of `find_longest_match` (junk set empty), with an
explicit fuel argument.  The wrapper `extendRight` passes `ahi - bestsize`,
which is exact: the loop increments `bestsize` while `besti + bestsize < ahi`,
and when the fuel is 0 the guard is false anyway. -/
def extendRightF (a b : Str) (ahi bhi besti bestj : Nat) : Nat → Nat → Nat
  | 0, bestsize => bestsize
  | fuel + 1, bestsize =>
    if besti + bestsize < ahi ∧ bestj + bestsize < bhi ∧
        a.getD (besti + bestsize) ' ' = b.getD (bestj + bestsize) ' ' then
      extendRightF a b ahi bhi besti bestj fuel (bestsize + 1)
    else bestsize

/-- Second extension loop of `find_longest_match` (junk set empty). -/
def extendRight (a b : Str) (ahi bhi besti bestj bestsize : Nat) : Nat :=
  extendRightF a b ahi bhi besti bestj (ahi - bestsize) bestsize

/-- `SequenceMatcher(None, a, b).find_longest_match(alo, ahi, blo, bhi)`
(the two junk-extension loops never run: the junk set is empty). -/
def findLongestMatch (a b : Str) (alo ahi blo bhi : Nat) : Nat × Nat × Nat :=
  let best := chainRows a b blo bhi (List.range' alo (ahi - alo)) [] ⟨alo, blo, 0⟩
  let ext := extendLeft a b alo blo best.besti best.bestj best.bestsize
  (ext.1, ext.2.1, extendRight a b ahi bhi ext.1 ext.2.1 ext.2.2)

end Difflib

namespace Difflib

/-- Invariant of the `j2len` tables: keys lie in `[blo, bhi)` and values are
bounded by the key offset and by the number of processed rows (`cap`). -/
def TableInv (blo bhi cap : Nat) (t : List (Nat × Nat)) : Prop :=
  ∀ p ∈ t, blo ≤ p.1 ∧ p.1 < bhi ∧ p.2 + blo ≤ p.1 + 1 ∧ p.2 ≤ cap

/-- Invariant of the running best match during the chaining phase. -/
def BestInv (alo blo ahi bhi : Nat) (best : Best) : Prop :=
  (best.besti = alo ∧ best.bestj = blo ∧ best.bestsize = 0) ∨
  (1 ≤ best.bestsize ∧ alo ≤ best.besti ∧ blo ≤ best.bestj ∧
    best.besti + best.bestsize ≤ ahi ∧ best.bestj + best.bestsize ≤ bhi)

theorem lookupD_le_cap {blo bhi cap : Nat} {t : List (Nat × Nat)}
    (h : TableInv blo bhi cap t) (k : Nat) : lookupD t k ≤ cap := by
  unfold lookupD
  cases hf : t.find? fun p => p.1 == k with
  | none => exact Nat.zero_le _
  | some p => exact (h p (List.mem_of_find?_eq_some hf)).2.2.2

theorem lookupD_key_bound {blo bhi cap : Nat} {t : List (Nat × Nat)}
    (h : TableInv blo bhi cap t) (k : Nat) :
    lookupD t k = 0 ∨ lookupD t k + blo ≤ k + 1 := by
  unfold lookupD
  cases hf : t.find? fun p => p.1 == k with
  | none => exact Or.inl rfl
  | some p =>
    right
    have hm := List.mem_of_find?_eq_some hf
    have hk : p.1 = k := by
      have := List.find?_some hf
      simpa using this
    have := (h p hm).2.2.1
    show p.2 + blo ≤ k + 1
    omega

theorem chainRow_inv {alo ahi blo bhi i cap : Nat} (hi : i < ahi) (hcap : alo + cap = i) :
    ∀ (js : List Nat) (j2len new : List (Nat × Nat)) (best : Best),
    TableInv blo bhi cap j2len → TableInv blo bhi (cap + 1) new →
    BestInv alo blo ahi bhi best →
    TableInv blo bhi (cap + 1) (chainRow blo bhi i js j2len new best).1 ∧
    BestInv alo blo ahi bhi (chainRow blo bhi i js j2len new best).2 := by
  intro js
  induction js with
  | nil => intro j2len new best ht hn hb; exact ⟨hn, hb⟩
  | cons j js ih =>
    intro j2len new best ht hn hb
    by_cases h1 : j < blo
    · rw [chainRow, if_pos h1]; exact ih j2len new best ht hn hb
    · by_cases h2 : bhi ≤ j
      · rw [chainRow, if_neg h1, if_pos h2]; exact ⟨hn, hb⟩
      · rw [chainRow, if_neg h1, if_neg h2]
        simp only
        set k := (if j = 0 then 0 else lookupD j2len (j - 1)) + 1 with hk
        have hkcap : k ≤ cap + 1 := by
          rw [hk]
          split
          · omega
          · have := lookupD_le_cap ht (j - 1)
            omega
        have hkj : k + blo ≤ j + 1 := by
          rw [hk]
          split
          · omega
          · rcases lookupD_key_bound ht (j - 1) with h | h <;> omega
        refine ih j2len ((j, k) :: new) _ ht ?_ ?_
        · intro p hp
          rcases List.mem_cons.mp hp with h | h
          · subst h; exact ⟨by omega, by omega, hkj, hkcap⟩
          · exact hn p h
        · by_cases h3 : best.bestsize < k
          · rw [if_pos h3]
            refine Or.inr ⟨?_, ?_, ?_, ?_, ?_⟩
            · show 1 ≤ k; omega
            · show alo ≤ i + 1 - k; omega
            · show blo ≤ j + 1 - k; omega
            · show i + 1 - k + k ≤ ahi; omega
            · show j + 1 - k + k ≤ bhi; omega
          · rw [if_neg h3]; exact hb

theorem chainRows_inv {a b : Str} {alo blo ahi bhi : Nat} :
    ∀ (m cap i₀ : Nat) (j2len : List (Nat × Nat)) (best : Best), alo + cap = i₀ →
    i₀ + m ≤ ahi →
    TableInv blo bhi cap j2len → BestInv alo blo ahi bhi best →
    BestInv alo blo ahi bhi (chainRows a b blo bhi (List.range' i₀ m) j2len best) := by
  intro m
  induction m with
  | zero => intro cap i₀ j2len best _ _ _ hb; exact hb
  | succ m ih =>
    intro cap i₀ j2len best hcap hm ht hb
    rw [List.range'_succ, chainRows]
    have hstep := @chainRow_inv alo ahi blo bhi i₀ cap
      (by omega) hcap (b2j b (a.getD i₀ ' ')) j2len [] best ht
      (by intro p hp; simp at hp) hb
    exact ih (cap + 1) (i₀ + 1) _ _ (by omega) (by omega) hstep.1 hstep.2

theorem extendLeft_spec (a b : Str) (alo blo : Nat) :
    ∀ (bi bj bs : Nat), alo ≤ bi → blo ≤ bj →
    alo ≤ (extendLeft a b alo blo bi bj bs).1 ∧
    blo ≤ (extendLeft a b alo blo bi bj bs).2.1 ∧
    (extendLeft a b alo blo bi bj bs).1 + (extendLeft a b alo blo bi bj bs).2.2 = bi + bs ∧
    (extendLeft a b alo blo bi bj bs).2.1 + (extendLeft a b alo blo bi bj bs).2.2 = bj + bs := by
  intro bi
  induction bi with
  | zero =>
    intro bj bs h1 h2
    exact ⟨h1, h2, rfl, rfl⟩
  | succ bi ih =>
    intro bj bs h1 h2
    simp only [extendLeft]
    split
    · next h =>
      have := ih (bj - 1) (bs + 1) (by omega) (by omega)
      refine ⟨this.1, this.2.1, by omega, by omega⟩
    · exact ⟨h1, h2, rfl, rfl⟩

theorem extendRightF_spec (a b : Str) (ahi bhi bi bj : Nat) :
    ∀ (fuel bs : Nat), ahi ≤ bs + fuel → bi + bs ≤ ahi → bj + bs ≤ bhi →
    bs ≤ extendRightF a b ahi bhi bi bj fuel bs ∧
    bi + extendRightF a b ahi bhi bi bj fuel bs ≤ ahi ∧
    bj + extendRightF a b ahi bhi bi bj fuel bs ≤ bhi := by
  intro fuel
  induction fuel with
  | zero => intro bs hf h1 h2; exact ⟨Nat.le_refl _, h1, h2⟩
  | succ fuel ih =>
    intro bs hf h1 h2
    simp only [extendRightF]
    split
    · next h =>
      have := ih (bs + 1) (by omega) (by omega) (by omega)
      exact ⟨by omega, this.2.1, this.2.2⟩
    · exact ⟨Nat.le_refl _, h1, h2⟩

theorem extendRight_spec (a b : Str) {ahi bhi bi bj bs : Nat}
    (h1 : bi + bs ≤ ahi) (h2 : bj + bs ≤ bhi) :
    bs ≤ extendRight a b ahi bhi bi bj bs ∧
    bi + extendRight a b ahi bhi bi bj bs ≤ ahi ∧
    bj + extendRight a b ahi bhi bi bj bs ≤ bhi :=
  extendRightF_spec a b ahi bhi bi bj (ahi - bs) bs (by omega) h1 h2

theorem extendRight_stopA (a b : Str) {ahi bhi bi bj bs : Nat} (h : ahi ≤ bi + bs) :
    extendRight a b ahi bhi bi bj bs = bs := by
  unfold extendRight
  cases hf : ahi - bs with
  | zero => rfl
  | succ n =>
    simp only [extendRightF]
    rw [if_neg]
    intro hc
    exact absurd hc.1 (by omega)

theorem extendRight_stopB (a b : Str) {ahi bhi bi bj bs : Nat} (h : bhi ≤ bj + bs) :
    extendRight a b ahi bhi bi bj bs = bs := by
  unfold extendRight
  cases hf : ahi - bs with
  | zero => rfl
  | succ n =>
    simp only [extendRightF]
    rw [if_neg]
    intro hc
    exact absurd hc.2.1 (by omega)

theorem extendLeft_stop (a b : Str) {alo blo bi bj bs : Nat} (h : bi ≤ alo ∨ bj ≤ blo) :
    extendLeft a b alo blo bi bj bs = (bi, bj, bs) := by
  cases bi with
  | zero => rfl
  | succ bi =>
    simp only [extendLeft]
    rw [if_neg]
    intro hc
    rcases h with h | h
    · exact absurd hc.1 (by omega)
    · exact absurd hc.2.1 (by omega)

theorem bestInv_chainRows (a b : Str) (alo ahi blo bhi : Nat) :
    BestInv alo blo ahi bhi
      (chainRows a b blo bhi (List.range' alo (ahi - alo)) [] ⟨alo, blo, 0⟩) := by
  by_cases hA : alo ≤ ahi
  · exact chainRows_inv (ahi - alo) 0 alo [] _ (by omega) (by omega)
      (by intro p hp; simp at hp) (Or.inl ⟨rfl, rfl, rfl⟩)
  · have h0 : ahi - alo = 0 := by omega
    rw [h0]
    exact Or.inl ⟨rfl, rfl, rfl⟩

theorem findLongestMatch_bounds {a b : Str} {alo ahi blo bhi : Nat}
    (hk : 1 ≤ (findLongestMatch a b alo ahi blo bhi).2.2) :
    alo ≤ (findLongestMatch a b alo ahi blo bhi).1 ∧
    blo ≤ (findLongestMatch a b alo ahi blo bhi).2.1 ∧
    (findLongestMatch a b alo ahi blo bhi).1 + (findLongestMatch a b alo ahi blo bhi).2.2 ≤ ahi ∧
    (findLongestMatch a b alo ahi blo bhi).2.1 + (findLongestMatch a b alo ahi blo bhi).2.2 ≤ bhi
    := by
  have hbest := bestInv_chainRows a b alo ahi blo bhi
  revert hk
  simp only [findLongestMatch]
  set best := chainRows a b blo bhi (List.range' alo (ahi - alo)) [] ⟨alo, blo, 0⟩ with hbdef
  rcases hbest with ⟨h1, h2, h3⟩ | ⟨hs1, hs2, hs3, hs4, hs5⟩
  · rw [h1, h2, h3, extendLeft_stop a b (Or.inl (Nat.le_refl _))]
    simp only
    intro hk
    by_cases hA : alo + 0 ≤ ahi
    · by_cases hB : blo + 0 ≤ bhi
      · have := extendRight_spec a b hA hB
        refine ⟨Nat.le_refl _, Nat.le_refl _, this.2.1, this.2.2⟩
      · rw [extendRight_stopB a b (by omega)] at hk
        omega
    · rw [extendRight_stopA a b (by omega)] at hk
      omega
  · have hext := extendLeft_spec a b alo blo best.besti best.bestj best.bestsize hs2 hs3
    set ext := extendLeft a b alo blo best.besti best.bestj best.bestsize with hedef
    intro hk
    have hr := @extendRight_spec a b ahi bhi ext.1 ext.2.1 ext.2.2 (by omega) (by omega)
    exact ⟨hext.1, hext.2.1, hr.2.1, hr.2.2⟩

/-- Termination measure for the `get_matching_blocks` queue loop. -/
def queueMeasure (q : List (Nat × Nat × Nat × Nat)) : Nat :=
  (q.map fun s => 2 * (s.2.1 - s.1)).sum + q.length

theorem queueMeasure_append (q1 q2 : List (Nat × Nat × Nat × Nat)) :
    queueMeasure (q1 ++ q2) = queueMeasure q1 + queueMeasure q2 := by
  simp [queueMeasure]
  omega

/-- Queue loop of `get_matching_blocks`, with fuel.  The Python list is used
as a stack (`queue.pop()` removes the most recently appended segment), so it
is modelled with the top of the stack at the head; appending `q1` then `q2`
corresponds to pushing `q2` in front of `q1`.  Each iteration strictly
decreases `queueMeasure`, so any fuel of at least `queueMeasure queue` is
enough for the loop to run to completion. -/
def gmbLoop (a b : Str) : Nat → List (Nat × Nat × Nat × Nat) → List (Nat × Nat × Nat) →
    List (Nat × Nat × Nat)
  | _, [], acc => acc
  | 0, _ :: _, acc => acc
  | fuel + 1, (alo, ahi, blo, bhi) :: rest, acc =>
    match findLongestMatch a b alo ahi blo bhi with
    | (i, j, k) =>
      if k = 0 then gmbLoop a b fuel rest acc
      else
        gmbLoop a b fuel
          ((if i + k < ahi ∧ j + k < bhi then [(i + k, ahi, j + k, bhi)] else []) ++
            (if alo < i ∧ blo < j then [(alo, i, blo, j)] else []) ++ rest)
          (acc ++ [(i, j, k)])

/-- Lexicographic order on match triples, as used by Python's list `sort()`
on triples of numbers. -/
def matchLe (x y : Nat × Nat × Nat) : Prop :=
  x.1 < y.1 ∨ (x.1 = y.1 ∧ (x.2.1 < y.2.1 ∨ (x.2.1 = y.2.1 ∧ x.2.2 ≤ y.2.2)))

instance : DecidableRel matchLe := fun x y => by unfold matchLe; infer_instance

instance : IsTotal (Nat × Nat × Nat) matchLe := ⟨by intro x y; unfold matchLe; omega⟩

instance : IsTrans (Nat × Nat × Nat) matchLe := ⟨by intro x y z; unfold matchLe; omega⟩

/-- The adjacent-block collapsing loop at the end of `get_matching_blocks`:
the running block `(i1, j1, k1)` starts as the dummy `(0, 0, 0)` and is
emitted, when nonempty, as soon as the next block is not adjacent to it. -/
def mergeAdj : Nat × Nat × Nat → List (Nat × Nat × Nat) → List (Nat × Nat × Nat)
  | (i1, j1, k1), [] => if k1 ≠ 0 then [(i1, j1, k1)] else []
  | (i1, j1, k1), (i2, j2, k2) :: rest =>
    if i1 + k1 = i2 ∧ j1 + k1 = j2 then mergeAdj (i1, j1, k1 + k2) rest
    else (if k1 ≠ 0 then [(i1, j1, k1)] else []) ++ mergeAdj (i2, j2, k2) rest

/-- `SequenceMatcher(None, a, b).get_matching_blocks()`: queue loop, sort,
collapse of adjacent blocks, and the final `(len(a), len(b), 0)` sentinel. -/
def getMatchingBlocks (a b : Str) : List (Nat × Nat × Nat) :=
  mergeAdj (0, 0, 0)
      (List.insertionSort matchLe
        (gmbLoop a b (2 * a.length + 1) [(0, a.length, 0, b.length)] []))
    ++ [(a.length, b.length, 0)]

example : getMatchingBlocks "abxcd".data "abcd".data = [(0, 0, 2), (3, 2, 2), (5, 4, 0)] := by
  decide

example : getMatchingBlocks " abcd".data "abcd abcd".data = [(0, 4, 5), (5, 9, 0)] := by
  decide

end Difflib

namespace Diff

/-- Python `zip(*rows)` (transpose truncated to the shortest row), with fuel.
`pyZip` supplies the length of the first row as fuel, which is enough: every
step consumes one element of every row. -/
def pyZipF {α : Type} : Nat → List (List α) → List (List α)
  | _, [] => []
  | 0, _ :: _ => []
  | fuel + 1, rows =>
    if rows.all fun r => !r.isEmpty then
      rows.filterMap List.head? :: pyZipF fuel (rows.map List.tail)
    else []

/-- Python `zip(*rows)`. -/
def pyZip {α : Type} (rows : List (List α)) : List (List α) :=
  pyZipF (rows.headD []).length rows

/-- `DiffWithContext` (tools/diff/__init__.py): a block of an alignment of
several strings, together with per-input left and right context. -/
structure DiffWithContext where
  sentence_id : Nat
  block : List Str
  left_context : List Str
  right_context : List Str
deriving Repr, DecidableEq

instance : Inhabited DiffWithContext := ⟨⟨0, [], [], []⟩⟩

/-- `DiffWithContext.__init__(sentence_id, aligned, index)`: the block is
`aligned[index]`; the contexts are per-input concatenations of the blocks
before resp. after `index` (the block itself heads the `zip` only to fix the
tuple length and is dropped again by `string[1:]`). -/
def mkDiffWithContext (sentence_id : Nat) (aligned : List (List Str)) (index : Nat) :
    DiffWithContext where
  sentence_id := sentence_id
  block := aligned.getD index []
  left_context := (pyZip (aligned.getD index [] :: aligned.take index)).map
    fun strings => (strings.drop 1).flatten
  right_context := (pyZip (aligned.getD index [] :: aligned.drop (index + 1))).map
    fun strings => (strings.drop 1).flatten

/-- `left_len`: `max(map(len, self.left_context))`.  Python's `max` raises on
an empty sequence; the model returns 0 there (unreachable in use). -/
def leftLen (d : DiffWithContext) : Nat := (d.left_context.map List.length).foldr max 0

/-- `right_len`: `max(map(len, self.right_context))`. -/
def rightLen (d : DiffWithContext) : Nat := (d.right_context.map List.length).foldr max 0

/-- `with_context(left_len, right_len, left_sep, right_sep)`: last `left_len`
characters of each left context, first `right_len` of each right context,
zipped with the block (`zip` truncates to the shortest of the three lists). -/
def withContext (d : DiffWithContext) (left_len right_len : Nat)
    (left_sep right_sep : Str) : List Str :=
  let left := d.left_context.map fun s => s.drop (s.length - left_len)
  let right := d.right_context.map fun s => s.take right_len
  (left.zip (d.block.zip right)).map fun p => p.1 ++ left_sep ++ p.2.1 ++ right_sep ++ p.2.2

/-- `1 == len({b.with_context(left_len, right_len) for b in blocks})`. -/
def isShared (blocks : List DiffWithContext) (l r : Nat) : Prop :=
  ((blocks.map fun b => withContext b l r [] []).dedup.length = 1)

instance (blocks : List DiffWithContext) (l r : Nat) : Decidable (isShared blocks l r) :=
  inferInstanceAs (Decidable (_ = 1))

/-- The `while` loop of `shared_context_size`, with fuel.  Each non-final
iteration strictly increases `l + r`, which stays bounded by
`left_len_max + right_len_max`, so that fuel plus one is always enough. -/
def scsLoop (blocks : List DiffWithContext) (maxL maxR : Nat) :
    Nat → Nat → Nat → Nat × Nat
  | 0, l, r => (l, r)
  | fuel + 1, l, r =>
    let l' := if l < maxL ∧ isShared blocks (l + 1) r then l + 1 else l
    let r' := if r < maxR ∧ isShared blocks l' (r + 1) then r + 1 else r
    if l' = l ∧ r' = r then (l, r) else scsLoop blocks maxL maxR fuel l' r'

/-- `shared_context_size(blocks)`. -/
def sharedContextSize (blocks : List DiffWithContext) : Nat × Nat :=
  let maxL := (blocks.map leftLen).foldr max 0
  let maxR := (blocks.map rightLen).foldr max 0
  scsLoop blocks maxL maxR (maxL + maxR + 1) 0 0

/-- The distinct values of `xs` in order of first appearance (the key order
of a Python dict or `collections.Counter` built from `xs`). -/
def firstOccs {α : Type} [DecidableEq α] (xs : List α) : List α :=
  xs.foldl (fun acc x => if x ∈ acc then acc else acc ++ [x]) []

/-- `collections.Counter(xs).most_common(1)[0]` (`none` when `xs` is empty):
the first value, in insertion order, whose count is maximal — Python's
`most_common` sorts stably by descending count, so ties go to the earliest
first appearance. -/
def firstMostCommon {α : Type} [DecidableEq α] (xs : List α) : Option (α × Nat) :=
  (firstOccs xs).foldl
    (fun acc v =>
      match acc with
      | none => some (v, xs.count v)
      | some (w, c) => if c < xs.count v then some (v, xs.count v) else some (w, c))
    none

/-- Python `max(candidates, key=lambda c: c[2][1])`: the first candidate with
maximal count (`max` keeps the earliest among equals). -/
def maxByCount (cs : List (Nat × Nat × (List Str × Nat))) :
    Option (Nat × Nat × (List Str × Nat)) :=
  match cs with
  | [] => none
  | c :: rest => some (rest.foldl (fun best c' => if best.2.2.2 < c'.2.2.2 then c' else best) c)

/-- `largest_subgroup(blocks)`. -/
def largestSubgroup (blocks : List DiffWithContext) : List DiffWithContext :=
  if blocks.length = 1 then blocks
  else
    let lr := sharedContextSize blocks
    let goLeft := blocks.map fun b => withContext b (lr.1 + 1) lr.2 [] []
    let goRight := blocks.map fun b => withContext b lr.1 (lr.2 + 1) [] []
    let candidates :=
      (if goLeft.dedup.length ≠ 1 then
        [(lr.1 + 1, lr.2, (firstMostCommon goLeft).getD ([], 0))] else []) ++
      (if goRight.dedup.length ≠ 1 then
        [(lr.1, lr.2 + 1, (firstMostCommon goRight).getD ([], 0))] else [])
    match maxByCount candidates with
    | none => blocks.take 1
    | some (ll, rr, ctx, _) => blocks.filter fun b => withContext b ll rr [] [] = ctx

/-- The `while` loop of `split_into_subgroups`, with fuel.  Each iteration
removes at least one member (`largest_subgroup` is nonempty), so fuel
`blocks.length + 1` is enough; on exhaustion the result coincides with the
loop-exit path.  Python's `b not in group` compares `DiffWithContext` objects
by identity; the model compares by value, which coincides whenever the run's
members are pairwise distinct values (`Nodup`), as in the claims below. -/
def splitLoop (shared : Nat × Nat) :
    Nat → List DiffWithContext → List (List DiffWithContext) → List (List DiffWithContext)
  | 0, blocks, groups => groups ++ if blocks.isEmpty then [] else [blocks]
  | fuel + 1, blocks, groups =>
    if blocks ≠ [] ∧ sharedContextSize blocks = shared then
      let group := largestSubgroup blocks
      splitLoop shared fuel (blocks.filter fun b => b ∉ group) (groups ++ [group])
    else groups ++ if blocks.isEmpty then [] else [blocks]

/-- `split_into_subgroups(blocks)`. -/
def splitIntoSubgroups (blocks : List DiffWithContext) : List (List DiffWithContext) :=
  splitLoop (sharedContextSize blocks) (blocks.length + 1) blocks []

/-- The members printed at the leaves of `show_hierarchically`, in order:
a collection of size one is a leaf; otherwise the function recurses into
`split_into_subgroups`.  Fuel `blocks.length` is enough because every
subgroup of a collection of two or more members is strictly smaller. -/
def hierLeavesF : Nat → List DiffWithContext → List DiffWithContext
  | 0, blocks => blocks
  | fuel + 1, blocks =>
    if blocks.length = 1 then blocks
    else ((splitIntoSubgroups blocks).map (hierLeavesF fuel)).flatten

/-- Leaves of the disclosure hierarchy of `show_hierarchically(blocks)`. -/
def hierLeaves (blocks : List DiffWithContext) : List DiffWithContext :=
  hierLeavesF blocks.length blocks

/-- Python `list.index(v)` for an element `v` of the list: the position of
the first occurrence (the out-of-list value for an absent element is
irrelevant, `diff_pattern` only looks up elements of the list itself). -/
def pyIndex {α : Type} [DecidableEq α] (v : α) : List α → Nat
  | [] => 0
  | x :: xs => if x = v then 0 else pyIndex v xs + 1

/-- `diff_pattern(block)`: one letter per position, `chr(ord('a') +
block.index(value))` — `list.index` returns the position of the first
occurrence of the value — joined with single spaces. -/
def diffPattern (block : List Str) : Str :=
  List.intercalate [' ']
    (block.map fun v => [Char.ofNat ('a'.toNat + pyIndex v block)])

end Diff

namespace Diff

/-- The letter assignment described by the spec for `diff_pattern`
(refinement comparison, written from the spec's words, not from the code):
each position receives the letter whose offset is the RANK of its value in
the order of first appearance of the distinct values. -/
def specRankPattern (block : List Str) : Str :=
  List.intercalate [' ']
    (block.map fun v => [Char.ofNat ('a'.toNat + pyIndex v (firstOccs block))])

theorem pyIndex_spec {α : Type} [DecidableEq α] (v : α) :
    ∀ l : List α, v ∈ l →
    pyIndex v l < l.length ∧ l.getD (pyIndex v l) v = v ∧
      ∀ j < pyIndex v l, l.getD j v ≠ v := by
  intro l
  induction l with
  | nil => intro h; simp at h
  | cons x xs ih =>
    intro hv
    by_cases hx : x = v
    · refine ⟨?_, ?_, ?_⟩ <;> simp [pyIndex, hx]
    · have hvxs : v ∈ xs := by
        rcases List.mem_cons.mp hv with h | h
        · exact absurd h.symm hx
        · exact h
      have := ih hvxs
      refine ⟨?_, ?_, ?_⟩
      · simp only [pyIndex, if_neg hx, List.length_cons]
        omega
      · simp only [pyIndex, if_neg hx, List.getD_cons_succ]
        exact this.2.1
      · intro j hj
        simp only [pyIndex, if_neg hx] at hj
        cases j with
        | zero => simpa using hx
        | succ j =>
          simp only [List.getD_cons_succ]
          exact this.2.2 j (by omega)

theorem pyIndex_eq_of_spec {α : Type} [DecidableEq α] (v : α) :
    ∀ (l : List α) (n : Nat), n < l.length → l.getD n v = v →
    (∀ j < n, l.getD j v ≠ v) → pyIndex v l = n := by
  intro l
  induction l with
  | nil => intro n hn; simp at hn
  | cons x xs ih =>
    intro n hn h1 h2
    cases n with
    | zero =>
      simp only [List.getD_cons_zero] at h1
      simp [pyIndex, h1]
    | succ n =>
      have hx : x ≠ v := by
        have := h2 0 (Nat.succ_pos n)
        simpa using this
      simp only [pyIndex, if_neg hx]
      have := ih n (by simpa using hn) (by simpa using h1)
        (fun j hj => by simpa using h2 (j + 1) (by omega))
      omega

theorem getD_eq_getD_of_lt {α : Type} (l : List α) (d1 d2 : α) (n : Nat) (h : n < l.length) :
    l.getD n d1 = l.getD n d2 := by
  rw [List.getD_eq_getElem l d1 h, List.getD_eq_getElem l d2 h]

/-- **C3** (amended).  `diff_pattern` gives position `p` the letter
`'a' + i` where `i` is the index of the *first occurrence* of `block[p]`
in the tuple (not the rank of that value among the distinct values): the
pattern depends only on the equality structure of the tuple, `(x, y, x)`
with `x ≠ y` yields `"a b a"`, and a pairwise distinct `(x, y, z)` yields
`"a b c"`. -/
theorem C3_diff_pattern_first_occurrence_index :
    (∀ t1 t2 : List Str, t1.length = t2.length →
      (∀ i j, i < t1.length → j < t1.length →
        (t1.getD i [] = t1.getD j [] ↔ t2.getD i [] = t2.getD j [])) →
      diffPattern t1 = diffPattern t2) ∧
    (∀ x y : Str, x ≠ y → diffPattern [x, y, x] = "a b a".data) ∧
    (∀ x y z : Str, x ≠ y → x ≠ z → y ≠ z → diffPattern [x, y, z] = "a b c".data) := by
  refine ⟨?_, ?_, ?_⟩
  · intro t1 t2 hlen hiso
    unfold diffPattern
    congr 1
    apply List.ext_getElem (by simpa using hlen)
    intro p h1 h2
    simp only [List.getElem_map, List.length_map] at h1 h2 ⊢
    congr 3
    set v1 := t1[p] with hv1
    set v2 := t2[p] with hv2
    have hv1m : v1 ∈ t1 := List.getElem_mem h1
    have hs := pyIndex_spec v1 t1 hv1m
    set n := pyIndex v1 t1 with hn
    have hgp1 : t1.getD p v1 = v1 := by rw [List.getD_eq_getElem t1 v1 h1]
    apply (pyIndex_eq_of_spec v2 t2 n (by omega) ?_ ?_).symm
    · have h1' : t1.getD n [] = t1.getD p [] := by
        rw [getD_eq_getD_of_lt t1 [] v1 n (by omega), getD_eq_getD_of_lt t1 [] v1 p h1]
        rw [hs.2.1, hgp1]
      have := (hiso n p (by omega) h1).mp h1'
      rw [getD_eq_getD_of_lt t2 [] v2 n (by omega), getD_eq_getD_of_lt t2 [] v2 p (by omega)]
        at this
      rw [this, List.getD_eq_getElem t2 v2 (by omega)]
    · intro j hj hcon
      have hjlt : j < t1.length := by omega
      have h2' : t2.getD j [] = t2.getD p [] := by
        rw [getD_eq_getD_of_lt t2 [] v2 j (by omega), getD_eq_getD_of_lt t2 [] v2 p (by omega)]
        rw [hcon, List.getD_eq_getElem t2 v2 (by omega)]
      have := (hiso j p hjlt h1).mpr h2'
      rw [getD_eq_getD_of_lt t1 [] v1 j hjlt, getD_eq_getD_of_lt t1 [] v1 p h1] at this
      rw [hgp1] at this
      exact hs.2.2 j hj this
  · intro x y hxy
    simp [diffPattern, pyIndex, hxy, Ne.symm hxy, List.intercalate, List.intersperse]
  · intro x y z hxy hxz hyz
    simp [diffPattern, pyIndex, hxy, hxz, hyz, Ne.symm hxy, Ne.symm hxz, Ne.symm hyz,
      List.intercalate, List.intersperse]

/-- Counterexample to **C3** as stated: on the tuple `(x, x, y)` the code
yields `"a a c"` (letter from the first-occurrence index 2 of `y`), not the
`"a a b"` that first-appearance *ranks* would give. -/
theorem C3_counterexample :
    diffPattern [['x'], ['x'], ['y']] = "a a c".data ∧
    specRankPattern [['x'], ['x'], ['y']] = "a a b".data ∧
    diffPattern [['x'], ['x'], ['y']] ≠ specRankPattern [['x'], ['x'], ['y']] := by
  refine ⟨by decide, by decide, by decide⟩

/-- Witness for the amended C3 at concrete inputs. -/
theorem C3_witness :
    diffPattern [['u'], ['v'], ['u']] = "a b a".data ∧
    diffPattern [['u'], ['v'], ['w']] = "a b c".data :=
  ⟨C3_diff_pattern_first_occurrence_index.2.1 ['u'] ['v'] (by decide),
   C3_diff_pattern_first_occurrence_index.2.2 ['u'] ['v'] ['w'] (by decide) (by decide)
     (by decide)⟩

end Diff

namespace Diff

theorem pyZipF_rect {α : Type} :
    ∀ (N : Nat) (rows : List (List α)), rows ≠ [] → (∀ r ∈ rows, r.length = N) →
    pyZipF N rows = (List.range N).map fun t => rows.filterMap fun r => r.get? t := by
  intro N
  induction N with
  | zero =>
    intro rows hne hlen
    cases rows with
    | nil => simp at hne
    | cons r rs => simp [pyZipF]
  | succ N ih =>
    intro rows hne hlen
    cases rows with
    | nil => simp at hne
    | cons r rs =>
      have hall : (r :: rs).all (fun r => !r.isEmpty) = true := by
        rw [List.all_eq_true]
        intro x hx
        have := hlen x hx
        simp [List.isEmpty_iff]
        intro hcon
        rw [hcon] at this
        simp at this
      simp only [pyZipF, hall, if_pos]
      have hmapne : (r :: rs).map List.tail ≠ [] := by simp
      have hmaplen : ∀ x ∈ (r :: rs).map List.tail, x.length = N := by
        intro x hx
        rcases List.mem_map.mp hx with ⟨y, hy, rfl⟩
        have := hlen y hy
        simp [List.length_tail, this]
      rw [ih ((r :: rs).map List.tail) hmapne hmaplen]
      rw [List.range_succ_eq_map]
      simp only [List.map_cons, List.map_map]
      congr 1
      · apply List.filterMap_congr
        intro x hx
        cases x with
        | nil =>
          exfalso
          have := hlen [] hx
          simp at this
        | cons c cs => simp
      · rw [← List.map_cons List.tail r rs]
        apply List.map_congr_left
        intro t ht
        simp only [Function.comp_apply, List.filterMap_map]
        apply List.filterMap_congr
        intro x hx
        cases x <;> simp [List.get?]

theorem pyZip_rect {α : Type} (N : Nat) (rows : List (List α)) (hne : rows ≠ [])
    (hlen : ∀ r ∈ rows, r.length = N) :
    pyZip rows = (List.range N).map fun t => rows.filterMap fun r => r.get? t := by
  have hh : (rows.headD []).length = N := by
    cases rows with
    | nil => simp at hne
    | cons r rs => exact hlen r (by simp)
  rw [pyZip, hh]
  exact pyZipF_rect N rows hne hlen

theorem filterMap_get?_eq_map {α : Type} (t : Nat) (d : α) :
    ∀ (l : List (List α)), (∀ r ∈ l, t < r.length) →
    (l.filterMap fun r => r.get? t) = l.map fun r => r.getD t d := by
  intro l
  induction l with
  | nil => intro _; rfl
  | cons r rs ih =>
    intro h
    have h1 : t < r.length := h r (by simp)
    have : r.get? t = some (r.getD t d) := by
      rw [List.getD_eq_getElem r d h1, List.get?_eq_getElem?, List.getElem?_eq_getElem h1]
    simp only [List.filterMap_cons, this, List.map_cons]
    rw [ih (fun x hx => h x (List.mem_cons_of_mem r hx))]

theorem getD_map_range {α : Type} (N i : Nat) (f : Nat → α) (d : α) (hi : i < N) :
    (((List.range N).map f).getD i d) = f i := by
  rw [List.getD_eq_getElem _ d (by simpa using hi)]
  simp

/-- The spec's description of `leftContext[i]` (refinement comparison,
written from the spec's words, not from the code): the concatenation of the
i-th components of the *unanimous* blocks before `index`. -/
def specLeftContext (aligned : List (List Str)) (index i : Nat) : Str :=
  (((aligned.take index).filter fun row => row.dedup.length == 1).map
    fun row => row.getD i []).flatten

/-- The i-th component of the block list of a well-formed alignment. -/
theorem mk_context_eq (sid : Nat) (aligned : List (List Str)) (index : Nat) (N : Nat)
    (hidx : index < aligned.length) (hrows : ∀ r ∈ aligned, r.length = N) :
    (mkDiffWithContext sid aligned index).left_context =
      ((List.range N).map fun i => ((aligned.take index).map fun row => row.getD i []).flatten) ∧
    (mkDiffWithContext sid aligned index).right_context =
      ((List.range N).map fun i =>
        ((aligned.drop (index + 1)).map fun row => row.getD i []).flatten) := by
  have hblock : aligned.getD index [] ∈ aligned := by
    rw [List.getD_eq_getElem aligned [] hidx]
    exact List.getElem_mem hidx
  have hblen : (aligned.getD index []).length = N := hrows _ hblock
  constructor
  · show (pyZip (aligned.getD index [] :: aligned.take index)).map
      (fun strings => (strings.drop 1).flatten) = _
    rw [pyZip_rect N _ (by simp) ?_]
    · rw [List.map_map]
      apply List.map_congr_left
      intro t ht
      rw [List.mem_range] at ht
      simp only [Function.comp_apply, List.filterMap_cons]
      have htl : t < (aligned.getD index []).length := by omega
      have hsome : (aligned.getD index []).get? t =
          some ((aligned.getD index []).getD t []) := by
        rw [List.get?_eq_getElem?, List.getElem?_eq_getElem htl, List.getD_eq_getElem _ [] htl]
      rw [hsome]
      simp only [List.drop_one, List.tail_cons]
      rw [filterMap_get?_eq_map t [] _ ?_]
      · intro r hr
        have := hrows r (List.mem_of_mem_take hr)
        omega
    · intro r hr
      rcases List.mem_cons.mp hr with h | h
      · rw [h]; exact hblen
      · exact hrows r (List.mem_of_mem_take h)
  · show (pyZip (aligned.getD index [] :: aligned.drop (index + 1))).map
      (fun strings => (strings.drop 1).flatten) = _
    rw [pyZip_rect N _ (by simp) ?_]
    · rw [List.map_map]
      apply List.map_congr_left
      intro t ht
      rw [List.mem_range] at ht
      simp only [Function.comp_apply, List.filterMap_cons]
      have htl : t < (aligned.getD index []).length := by omega
      have hsome : (aligned.getD index []).get? t =
          some ((aligned.getD index []).getD t []) := by
        rw [List.get?_eq_getElem?, List.getElem?_eq_getElem htl, List.getD_eq_getElem _ [] htl]
      rw [hsome]
      simp only [List.drop_one, List.tail_cons]
      rw [filterMap_get?_eq_map t [] _ ?_]
      · intro r hr
        have := hrows r (List.mem_of_mem_drop hr)
        omega
    · intro r hr
      rcases List.mem_cons.mp hr with h | h
      · rw [h]; exact hblen
      · exact hrows r (List.mem_of_mem_drop h)

/-- **C2** (amended).  For a `DiffWithContext` built from a rectangular
alignment, `leftContext[i]` is the concatenation of the i-th components of
*all* blocks before `index` — unanimous or not — and `rightContext[i]`
likewise over all blocks after `index`. -/
theorem C2_context_concatenates_all_blocks (sid : Nat) (aligned : List (List Str))
    (index N i : Nat) (hidx : index < aligned.length) (hrows : ∀ r ∈ aligned, r.length = N)
    (hi : i < N) :
    (mkDiffWithContext sid aligned index).left_context.getD i [] =
      ((aligned.take index).map fun row => row.getD i []).flatten ∧
    (mkDiffWithContext sid aligned index).right_context.getD i [] =
      ((aligned.drop (index + 1)).map fun row => row.getD i []).flatten := by
  have h := mk_context_eq sid aligned index N hidx hrows
  rw [h.1, h.2]
  exact ⟨getD_map_range N i _ [] hi, getD_map_range N i _ [] hi⟩

/-- Counterexample to **C2** as stated: in the alignment
`[(a, b), (c, d)]` the block at index 1 is preceded by the *divergent* block
`(a, b)`, and the code's left context is `(a, b)`, not the empty strings the
unanimous-blocks-only description predicts. -/
theorem C2_counterexample :
    (mkDiffWithContext 7 [[['a'], ['b']], [['c'], ['d']]] 1).left_context.getD 0 [] = ['a'] ∧
    specLeftContext [[['a'], ['b']], [['c'], ['d']]] 1 0 = [] ∧
    (mkDiffWithContext 7 [[['a'], ['b']], [['c'], ['d']]] 1).left_context.getD 0 [] ≠
      specLeftContext [[['a'], ['b']], [['c'], ['d']]] 1 0 := by
  refine ⟨by decide, by decide, by decide⟩

/-- Witness for the amended C2 at a concrete input. -/
theorem C2_witness :
    (mkDiffWithContext 7 [[['a'], ['b']], [['c'], ['d']]] 1).left_context.getD 0 [] =
      ((([[['a'], ['b']], [['c'], ['d']]] : List (List Str)).take 1).map
        fun row => row.getD 0 []).flatten :=
  (C2_context_concatenates_all_blocks 7 [[['a'], ['b']], [['c'], ['d']]] 1 2 0
    (by decide) (by decide) (by decide)).1

end Diff

namespace Diff

theorem dedup_length_one_iff {α : Type} [DecidableEq α] (xs : List α) (c : α) (hne : xs ≠ [])
    (hall : ∀ x ∈ xs, x = c) : xs.dedup.length = 1 := by
  have hmem : c ∈ xs.dedup := by
    rw [List.mem_dedup]
    cases xs with
    | nil => exact absurd rfl hne
    | cons x rest => rw [← hall x (by simp)]; simp
  have hsub : ∀ x ∈ xs.dedup, x = c := fun x hx => hall x (List.mem_dedup.mp hx)
  have hnd := List.nodup_dedup xs
  cases hd : xs.dedup with
  | nil => rw [hd] at hmem; simp at hmem
  | cons y ys =>
    cases ys with
    | nil => rfl
    | cons z zs =>
      exfalso
      rw [hd] at hsub hnd
      have hy := hsub y (by simp)
      have hz := hsub z (by simp)
      rw [List.nodup_cons] at hnd
      exact hnd.1 (by rw [hy, hz]; simp)

/-- **C9** (confirmed).  If a group of two or more members is such that,
at its shared context size `(l, r)`, every member still renders identically
when the context is extended by one character on the left and when it is
extended by one character on the right, then `largest_subgroup` returns the
singleton list holding the group's first member. -/
theorem C9_undifferentiated_group_falls_back_to_first (blocks : List DiffWithContext)
    (h2 : 2 ≤ blocks.length)
    (hl : ∀ b ∈ blocks,
      withContext b ((sharedContextSize blocks).1 + 1) (sharedContextSize blocks).2 [] [] =
      withContext (blocks.headD default) ((sharedContextSize blocks).1 + 1)
        (sharedContextSize blocks).2 [] [])
    (hr : ∀ b ∈ blocks,
      withContext b (sharedContextSize blocks).1 ((sharedContextSize blocks).2 + 1) [] [] =
      withContext (blocks.headD default) (sharedContextSize blocks).1
        ((sharedContextSize blocks).2 + 1) [] []) :
    largestSubgroup blocks = [blocks.headD default] := by
  have hne : blocks ≠ [] := by
    intro h
    rw [h] at h2
    simp at h2
  have hlen1 : blocks.length ≠ 1 := by omega
  unfold largestSubgroup
  rw [if_neg hlen1]
  have hgl : (blocks.map fun b =>
      withContext b ((sharedContextSize blocks).1 + 1) (sharedContextSize blocks).2 [] []
      ).dedup.length = 1 := by
    apply dedup_length_one_iff _
      (withContext (blocks.headD default) ((sharedContextSize blocks).1 + 1)
        (sharedContextSize blocks).2 [] []) (by simpa using hne)
    intro x hx
    rcases List.mem_map.mp hx with ⟨b, hb, rfl⟩
    exact hl b hb
  have hgr : (blocks.map fun b =>
      withContext b (sharedContextSize blocks).1 ((sharedContextSize blocks).2 + 1) [] []
      ).dedup.length = 1 := by
    apply dedup_length_one_iff _
      (withContext (blocks.headD default) (sharedContextSize blocks).1
        ((sharedContextSize blocks).2 + 1) [] []) (by simpa using hne)
    intro x hx
    rcases List.mem_map.mp hx with ⟨b, hb, rfl⟩
    exact hr b hb
  simp only [hgl, hgr, ne_eq, not_true_eq_false, if_false, List.nil_append, if_neg]
  show (match maxByCount [] with
    | none => blocks.take 1
    | some (ll, rr, ctx, _) => blocks.filter fun b => withContext b ll rr [] [] = ctx) =
    [blocks.headD default]
  show blocks.take 1 = [blocks.headD default]
  cases blocks with
  | nil => exact absurd rfl hne
  | cons b rest => simp

/-- Witness for C9: two members that differ only in `sentence_id` render
identically at every context width, so the fallback applies. -/
theorem C9_witness :
    largestSubgroup [⟨1, [['x']], [['l']], [['r']]⟩, ⟨2, [['x']], [['l']], [['r']]⟩] =
      [⟨1, [['x']], [['l']], [['r']]⟩] :=
  C9_undifferentiated_group_falls_back_to_first
    [⟨1, [['x']], [['l']], [['r']]⟩, ⟨2, [['x']], [['l']], [['r']]⟩]
    (by decide) (by decide) (by decide)

end Diff

namespace Diff

/-- The trimmed left contexts of one member at width `l` (the list `left`
inside `with_context`). -/
def trims (b : DiffWithContext) (l : Nat) : List Str :=
  b.left_context.map fun s => s.drop (s.length - l)

/-- The truncated right contexts of one member at width `r` (the list
`right` inside `with_context`). -/
def takes (b : DiffWithContext) (r : Nat) : List Str :=
  b.right_context.map fun s => s.take r

/-- All members show the same trimmed left contexts at width `l`. -/
def StrongL (blocks : List DiffWithContext) (l : Nat) : Prop :=
  ∀ b1 ∈ blocks, ∀ b2 ∈ blocks, trims b1 l = trims b2 l

/-- All members show the same truncated right contexts at width `r`. -/
def StrongR (blocks : List DiffWithContext) (r : Nat) : Prop :=
  ∀ b1 ∈ blocks, ∀ b2 ∈ blocks, takes b1 r = takes b2 r

/-- A group in the spec's sense: nonempty, one shared divergent block, and
per-member context lists of the block's length (as the constructor builds
them from a rectangular alignment). -/
def IsGroup (blocks : List DiffWithContext) (blk : List Str) : Prop :=
  blocks ≠ [] ∧ ∀ b ∈ blocks, b.block = blk ∧
    b.left_context.length = blk.length ∧ b.right_context.length = blk.length

theorem withContext_nosep (b : DiffWithContext) (l r : Nat) :
    withContext b l r [] [] =
      ((trims b l).zip (b.block.zip (takes b r))).map fun p => p.1 ++ p.2.1 ++ p.2.2 := by
  unfold withContext trims takes
  simp

theorem zip_cancel_left :
    ∀ (bl lc1 lc2 rc1 rc2 : List Str),
    lc1.length = bl.length → lc2.length = bl.length →
    rc1.length = bl.length → rc2.length = bl.length → rc1 = rc2 →
    (lc1.zip (bl.zip rc1)).map (fun p => p.1 ++ p.2.1 ++ p.2.2) =
      (lc2.zip (bl.zip rc2)).map (fun p => p.1 ++ p.2.1 ++ p.2.2) →
    lc1 = lc2 := by
  intro bl
  induction bl with
  | nil =>
    intro lc1 lc2 rc1 rc2 h1 h2 _ _ _ _
    rw [List.length_eq_zero.mp h1, List.length_eq_zero.mp h2]
  | cons m bl ih =>
    intro lc1 lc2 rc1 rc2 h1 h2 h3 h4 hrc heq
    cases lc1 with
    | nil => simp at h1
    | cons u1 t1 =>
      cases lc2 with
      | nil => simp at h2
      | cons u2 t2 =>
        cases rc1 with
        | nil => simp at h3
        | cons v1 w1 =>
          cases rc2 with
          | nil => simp at h4
          | cons v2 w2 =>
            simp only [List.zip_cons_cons, List.map_cons, List.cons.injEq] at heq
            rw [List.cons.injEq] at hrc
            have hu : u1 = u2 := by
              have h := heq.1
              rw [hrc.1] at h
              exact List.append_cancel_right (List.append_cancel_right h)
            rw [hu, ih t1 t2 w1 w2 (by simpa using h1) (by simpa using h2)
              (by simpa using h3) (by simpa using h4) hrc.2 heq.2]

theorem zip_cancel_right :
    ∀ (bl lc1 lc2 rc1 rc2 : List Str),
    lc1.length = bl.length → lc2.length = bl.length →
    rc1.length = bl.length → rc2.length = bl.length → lc1 = lc2 →
    (lc1.zip (bl.zip rc1)).map (fun p => p.1 ++ p.2.1 ++ p.2.2) =
      (lc2.zip (bl.zip rc2)).map (fun p => p.1 ++ p.2.1 ++ p.2.2) →
    rc1 = rc2 := by
  intro bl
  induction bl with
  | nil =>
    intro lc1 lc2 rc1 rc2 _ _ h3 h4 _ _
    rw [List.length_eq_zero.mp h3, List.length_eq_zero.mp h4]
  | cons m bl ih =>
    intro lc1 lc2 rc1 rc2 h1 h2 h3 h4 hlc heq
    cases lc1 with
    | nil => simp at h1
    | cons u1 t1 =>
      cases lc2 with
      | nil => simp at h2
      | cons u2 t2 =>
        cases rc1 with
        | nil => simp at h3
        | cons v1 w1 =>
          cases rc2 with
          | nil => simp at h4
          | cons v2 w2 =>
            simp only [List.zip_cons_cons, List.map_cons, List.cons.injEq] at heq
            rw [List.cons.injEq] at hlc
            have hv : v1 = v2 := by
              have h := heq.1
              rw [hlc.1] at h
              exact List.append_cancel_left h
            rw [hv, ih t1 t2 w1 w2 (by simpa using h1) (by simpa using h2)
              (by simpa using h3) (by simpa using h4) hlc.2 heq.2]

theorem all_eq_of_dedup_length_one {α : Type} [DecidableEq α] (xs : List α)
    (h : xs.dedup.length = 1) : ∀ x ∈ xs, ∀ y ∈ xs, x = y := by
  intro x hx y hy
  have hx' : x ∈ xs.dedup := List.mem_dedup.mpr hx
  have hy' : y ∈ xs.dedup := List.mem_dedup.mpr hy
  cases hd : xs.dedup with
  | nil => rw [hd] at hx'; simp at hx'
  | cons a t =>
    rw [hd] at h hx' hy'
    simp only [List.length_cons, Nat.add_left_eq_self, List.length_eq_zero] at h
    subst h
    simp only [List.mem_singleton] at hx' hy'
    rw [hx', hy']

theorem isShared_of_strong {blocks : List DiffWithContext} {blk : List Str}
    (hg : IsGroup blocks blk) {l r : Nat}
    (hl : StrongL blocks l) (hr : StrongR blocks r) : isShared blocks l r := by
  rcases hg with ⟨hne, hmem⟩
  unfold isShared
  apply dedup_length_one_iff _
    (withContext (blocks.headD default) l r [] []) (by simpa using hne)
  intro x hx
  rcases List.mem_map.mp hx with ⟨b, hb, rfl⟩
  have hhead : blocks.headD default ∈ blocks := by
    cases blocks with
    | nil => exact absurd rfl hne
    | cons y ys => simp
  rw [withContext_nosep, withContext_nosep, (hmem b hb).1, (hmem _ hhead).1,
    hl b hb _ hhead, hr b hb _ hhead]

theorem strongL_of_isShared {blocks : List DiffWithContext} {blk : List Str}
    (hg : IsGroup blocks blk) {l r : Nat}
    (hr : StrongR blocks r) (hs : isShared blocks l r) : StrongL blocks l := by
  rcases hg with ⟨hne, hmem⟩
  intro b1 hb1 b2 hb2
  have heq : withContext b1 l r [] [] = withContext b2 l r [] [] := by
    have := all_eq_of_dedup_length_one _ hs
      (withContext b1 l r [] []) (List.mem_map_of_mem _ hb1)
      (withContext b2 l r [] []) (List.mem_map_of_mem _ hb2)
    exact this
  rw [withContext_nosep, withContext_nosep, (hmem b1 hb1).1, (hmem b2 hb2).1] at heq
  refine zip_cancel_left blk _ _ (takes b1 r) (takes b2 r) ?_ ?_ ?_ ?_ ?_ heq
  · simpa [trims] using (hmem b1 hb1).2.1
  · simpa [trims] using (hmem b2 hb2).2.1
  · simpa [takes] using (hmem b1 hb1).2.2
  · simpa [takes] using (hmem b2 hb2).2.2
  · exact hr b1 hb1 b2 hb2

theorem strongR_of_isShared {blocks : List DiffWithContext} {blk : List Str}
    (hg : IsGroup blocks blk) {l r : Nat}
    (hl : StrongL blocks l) (hs : isShared blocks l r) : StrongR blocks r := by
  rcases hg with ⟨hne, hmem⟩
  intro b1 hb1 b2 hb2
  have heq : withContext b1 l r [] [] = withContext b2 l r [] [] :=
    all_eq_of_dedup_length_one _ hs
      (withContext b1 l r [] []) (List.mem_map_of_mem _ hb1)
      (withContext b2 l r [] []) (List.mem_map_of_mem _ hb2)
  rw [withContext_nosep, withContext_nosep, (hmem b1 hb1).1, (hmem b2 hb2).1] at heq
  refine zip_cancel_right blk (trims b1 l) (trims b2 l) _ _ ?_ ?_ ?_ ?_ ?_ heq
  · simpa [trims] using (hmem b1 hb1).2.1
  · simpa [trims] using (hmem b2 hb2).2.1
  · simpa [takes] using (hmem b1 hb1).2.2
  · simpa [takes] using (hmem b2 hb2).2.2
  · exact hl b1 hb1 b2 hb2

theorem trims_succ_determines (b : DiffWithContext) (l : Nat) :
    trims b l = (trims b (l + 1)).map fun t => t.drop (t.length - l) := by
  unfold trims
  rw [List.map_map]
  apply List.map_congr_left
  intro s _
  simp only [Function.comp_apply, List.drop_drop, List.length_drop]
  congr 1
  omega

theorem takes_succ_determines (b : DiffWithContext) (r : Nat) :
    takes b r = (takes b (r + 1)).map fun t => t.take r := by
  unfold takes
  rw [List.map_map]
  apply List.map_congr_left
  intro s _
  simp only [Function.comp_apply, List.take_take]
  congr 1
  omega

theorem strongL_mono {blocks : List DiffWithContext} {l : Nat}
    (h : StrongL blocks (l + 1)) : StrongL blocks l := by
  intro b1 hb1 b2 hb2
  rw [trims_succ_determines b1 l, trims_succ_determines b2 l, h b1 hb1 b2 hb2]

theorem strongR_mono {blocks : List DiffWithContext} {r : Nat}
    (h : StrongR blocks (r + 1)) : StrongR blocks r := by
  intro b1 hb1 b2 hb2
  rw [takes_succ_determines b1 r, takes_succ_determines b2 r, h b1 hb1 b2 hb2]

theorem strongL_below {blocks : List DiffWithContext} {l : Nat}
    (h : StrongL blocks l) : ∀ l' ≤ l, StrongL blocks l' := by
  induction l with
  | zero => intro l' hl'; rw [Nat.le_zero.mp hl']; exact h
  | succ l ih =>
    intro l' hl'
    rcases Nat.eq_or_lt_of_le hl' with rfl | hlt
    · exact h
    · exact ih (strongL_mono h) l' (by omega)

theorem strongR_below {blocks : List DiffWithContext} {r : Nat}
    (h : StrongR blocks r) : ∀ r' ≤ r, StrongR blocks r' := by
  induction r with
  | zero => intro r' hr'; rw [Nat.le_zero.mp hr']; exact h
  | succ r ih =>
    intro r' hr'
    rcases Nat.eq_or_lt_of_le hr' with rfl | hlt
    · exact h
    · exact ih (strongR_mono h) r' (by omega)

theorem strongL_zero {blocks : List DiffWithContext} {blk : List Str}
    (hg : IsGroup blocks blk) : StrongL blocks 0 := by
  have hconst : ∀ b ∈ blocks, trims b 0 = List.replicate blk.length ([] : Str) := by
    intro b hb
    rw [List.eq_replicate_iff]
    constructor
    · simpa [trims] using (hg.2 b hb).2.1
    · intro t ht
      rcases List.mem_map.mp ht with ⟨s, _, rfl⟩
      simp
  intro b1 hb1 b2 hb2
  rw [hconst b1 hb1, hconst b2 hb2]

theorem strongR_zero {blocks : List DiffWithContext} {blk : List Str}
    (hg : IsGroup blocks blk) : StrongR blocks 0 := by
  have hconst : ∀ b ∈ blocks, takes b 0 = List.replicate blk.length ([] : Str) := by
    intro b hb
    rw [List.eq_replicate_iff]
    constructor
    · simpa [takes] using (hg.2 b hb).2.2
    · intro t ht
      rcases List.mem_map.mp ht with ⟨s, _, rfl⟩
      simp
  intro b1 hb1 b2 hb2
  rw [hconst b1 hb1, hconst b2 hb2]

theorem le_foldr_max (l : List Nat) (x : Nat) (hx : x ∈ l) : x ≤ l.foldr max 0 := by
  induction l with
  | nil => simp at hx
  | cons y ys ih =>
    rcases List.mem_cons.mp hx with rfl | h
    · simp [List.foldr_cons, Nat.le_max_left]
    · have := ih h
      simp only [List.foldr_cons]
      omega

theorem exists_gt_of_lt_foldr_max (l : List Nat) (c : Nat) (h : c < l.foldr max 0) :
    ∃ x ∈ l, c < x := by
  induction l with
  | nil => simp at h
  | cons y ys ih =>
    simp only [List.foldr_cons] at h
    by_cases hy : c < y
    · exact ⟨y, by simp, hy⟩
    · rcases ih (by omega) with ⟨x, hx, hcx⟩
      exact ⟨x, by simp [hx], hcx⟩

theorem scsLoop_char {blocks : List DiffWithContext} {blk : List Str}
    (hg : IsGroup blocks blk) (maxL maxR : Nat) :
    ∀ (fuel l r : Nat), l ≤ maxL → r ≤ maxR → maxL + maxR + 1 ≤ fuel + l + r →
    StrongL blocks l → StrongR blocks r →
    (scsLoop blocks maxL maxR fuel l r).1 ≤ maxL ∧
    (scsLoop blocks maxL maxR fuel l r).2 ≤ maxR ∧
    StrongL blocks (scsLoop blocks maxL maxR fuel l r).1 ∧
    StrongR blocks (scsLoop blocks maxL maxR fuel l r).2 ∧
    (maxL ≤ (scsLoop blocks maxL maxR fuel l r).1 ∨
      ¬StrongL blocks ((scsLoop blocks maxL maxR fuel l r).1 + 1)) ∧
    (maxR ≤ (scsLoop blocks maxL maxR fuel l r).2 ∨
      ¬StrongR blocks ((scsLoop blocks maxL maxR fuel l r).2 + 1)) := by
  intro fuel
  induction fuel with
  | zero => intro l r hl hr hfuel _ _; omega
  | succ fuel ih =>
    intro l r hl hr hfuel hsl hsr
    rw [scsLoop]
    by_cases hc1 : l < maxL ∧ isShared blocks (l + 1) r
    · have hsl' : StrongL blocks (l + 1) := strongL_of_isShared hg hsr hc1.2
      rw [if_pos hc1]
      by_cases hc2 : r < maxR ∧ isShared blocks (l + 1) (r + 1)
      · have hsr' : StrongR blocks (r + 1) := strongR_of_isShared hg hsl' hc2.2
        rw [if_pos hc2, if_neg (by omega)]
        exact ih (l + 1) (r + 1) (by omega) (by omega) (by omega) hsl' hsr'
      · rw [if_neg hc2, if_neg (by omega)]
        exact ih (l + 1) r (by omega) hr (by omega) hsl' hsr
    · rw [if_neg hc1]
      by_cases hc2 : r < maxR ∧ isShared blocks l (r + 1)
      · have hsr' : StrongR blocks (r + 1) := strongR_of_isShared hg hsl hc2.2
        rw [if_pos hc2, if_neg (by omega)]
        exact ih l (r + 1) hl (by omega) (by omega) hsl hsr'
      · rw [if_neg hc2, if_pos ⟨rfl, rfl⟩]
        refine ⟨hl, hr, hsl, hsr, ?_, ?_⟩
        · by_cases hml : maxL ≤ l
          · exact Or.inl hml
          · right
            intro hcon
            exact hc1 ⟨by omega, isShared_of_strong hg hcon hsr⟩
        · by_cases hmr : maxR ≤ r
          · exact Or.inl hmr
          · right
            intro hcon
            exact hc2 ⟨by omega, isShared_of_strong hg hsl hcon⟩

theorem scs_char {blocks : List DiffWithContext} {blk : List Str} (hg : IsGroup blocks blk) :
    (sharedContextSize blocks).1 ≤ (blocks.map leftLen).foldr max 0 ∧
    (sharedContextSize blocks).2 ≤ (blocks.map rightLen).foldr max 0 ∧
    StrongL blocks (sharedContextSize blocks).1 ∧
    StrongR blocks (sharedContextSize blocks).2 ∧
    ((blocks.map leftLen).foldr max 0 ≤ (sharedContextSize blocks).1 ∨
      ¬StrongL blocks ((sharedContextSize blocks).1 + 1)) ∧
    ((blocks.map rightLen).foldr max 0 ≤ (sharedContextSize blocks).2 ∨
      ¬StrongR blocks ((sharedContextSize blocks).2 + 1)) := by
  unfold sharedContextSize
  exact scsLoop_char hg _ _ _ 0 0 (Nat.zero_le _) (Nat.zero_le _) (by omega)
    (strongL_zero hg) (strongR_zero hg)

theorem scs_le_len {blocks : List DiffWithContext} {blk : List Str} (hg : IsGroup blocks blk) :
    ∀ b ∈ blocks, (sharedContextSize blocks).1 ≤ leftLen b ∧
      (sharedContextSize blocks).2 ≤ rightLen b := by
  have hc := scs_char hg
  intro b hb
  constructor
  · by_contra hcon
    push_neg at hcon
    set m := leftLen b with hm
    have hsl : StrongL blocks (m + 1) :=
      strongL_below hc.2.2.1 (m + 1) (by omega)
    have hmaxgt : m < (blocks.map leftLen).foldr max 0 := by
      have := hc.1
      omega
    rcases exists_gt_of_lt_foldr_max _ _ hmaxgt with ⟨x, hxm, hmx⟩
    rcases List.mem_map.mp hxm with ⟨B, hB, rfl⟩
    have hsB : ∃ s ∈ B.left_context, m < s.length := by
      rcases exists_gt_of_lt_foldr_max (B.left_context.map List.length) m
        (by unfold leftLen at hmx; omega) with ⟨x, hx, hmx'⟩
      rcases List.mem_map.mp hx with ⟨s, hs, rfl⟩
      exact ⟨s, hs, hmx'⟩
    rcases hsB with ⟨s, hs, hslen⟩
    have htrimeq : trims b (m + 1) = trims B (m + 1) := hsl b hb B hB
    have hmemlen : (m + 1) ∈ (trims B (m + 1)).map List.length := by
      apply List.mem_map.mpr
      refine ⟨s.drop (s.length - (m + 1)), List.mem_map_of_mem _ hs, ?_⟩
      rw [List.length_drop]
      omega
    rw [← htrimeq] at hmemlen
    rcases List.mem_map.mp hmemlen with ⟨t, ht, htlen⟩
    rcases List.mem_map.mp ht with ⟨s', hs', rfl⟩
    rw [List.length_drop] at htlen
    have hs'len : s'.length ≤ m := by
      rw [hm]
      unfold leftLen
      exact le_foldr_max _ _ (List.mem_map_of_mem _ hs')
    omega
  · by_contra hcon
    push_neg at hcon
    set m := rightLen b with hm
    have hsr : StrongR blocks (m + 1) :=
      strongR_below hc.2.2.2.1 (m + 1) (by omega)
    have hmaxgt : m < (blocks.map rightLen).foldr max 0 := by
      have := hc.2.1
      omega
    rcases exists_gt_of_lt_foldr_max _ _ hmaxgt with ⟨x, hxm, hmx⟩
    rcases List.mem_map.mp hxm with ⟨B, hB, rfl⟩
    have hsB : ∃ s ∈ B.right_context, m < s.length := by
      rcases exists_gt_of_lt_foldr_max (B.right_context.map List.length) m
        (by unfold rightLen at hmx; omega) with ⟨x, hx, hmx'⟩
      rcases List.mem_map.mp hx with ⟨s, hs, rfl⟩
      exact ⟨s, hs, hmx'⟩
    rcases hsB with ⟨s, hs, hslen⟩
    have htakeeq : takes b (m + 1) = takes B (m + 1) := hsr b hb B hB
    have hmemlen : (m + 1) ∈ (takes B (m + 1)).map List.length := by
      apply List.mem_map.mpr
      refine ⟨s.take (m + 1), List.mem_map_of_mem _ hs, ?_⟩
      rw [List.length_take]
      omega
    rw [← htakeeq] at hmemlen
    rcases List.mem_map.mp hmemlen with ⟨t, ht, htlen⟩
    rcases List.mem_map.mp ht with ⟨s', hs', rfl⟩
    rw [List.length_take] at htlen
    have hs'len : s'.length ≤ m := by
      rw [hm]
      unfold rightLen
      exact le_foldr_max _ _ (List.mem_map_of_mem _ hs')
    omega

/-- **C5** (confirmed).  For a nonempty group (all members sharing one
divergent block, contexts of the block's length), both components of
`shared_context_size` are bounded by every member's available context length
on the corresponding side, hence by the group minimum. -/
theorem C5_scs_bounded_by_member_context (blocks : List DiffWithContext) (blk : List Str)
    (hg : IsGroup blocks blk) :
    ∀ b ∈ blocks, (sharedContextSize blocks).1 ≤ leftLen b ∧
      (sharedContextSize blocks).2 ≤ rightLen b :=
  scs_le_len hg

/-- Witness for C5 at a concrete two-member group. -/
theorem C5_witness :
    (sharedContextSize [⟨1, [['x']], [['p', 'q']], [['u']]⟩,
        ⟨2, [['x']], [['r', 'q']], [['u']]⟩]).1 ≤
      leftLen ⟨1, [['x']], [['p', 'q']], [['u']]⟩ ∧
    (sharedContextSize [⟨1, [['x']], [['p', 'q']], [['u']]⟩,
        ⟨2, [['x']], [['r', 'q']], [['u']]⟩]).2 ≤
      rightLen ⟨1, [['x']], [['p', 'q']], [['u']]⟩ :=
  C5_scs_bounded_by_member_context
    [⟨1, [['x']], [['p', 'q']], [['u']]⟩, ⟨2, [['x']], [['r', 'q']], [['u']]⟩]
    [['x']] ⟨by decide, by decide⟩ ⟨1, [['x']], [['p', 'q']], [['u']]⟩ (by decide)

/-- **C4** (confirmed).  Replacing a group of two or more members by any
strict nonempty subset can only keep or grow the shared context size, on
both sides. -/
theorem C4_scs_antitone_in_members (G S : List DiffWithContext) (blk : List Str)
    (hg : IsGroup G blk) (h2 : 2 ≤ G.length) (hsub : S.Sublist G) (hne : S ≠ [])
    (hstrict : S.length < G.length) :
    (sharedContextSize G).1 ≤ (sharedContextSize S).1 ∧
    (sharedContextSize G).2 ≤ (sharedContextSize S).2 := by
  have hgS : IsGroup S blk := ⟨hne, fun b hb => hg.2 b (hsub.subset hb)⟩
  have hcG := scs_char hg
  have hcS := scs_char hgS
  obtain ⟨s₀, hs₀⟩ : ∃ s, s ∈ S := by
    cases S with
    | nil => exact absurd rfl hne
    | cons x xs => exact ⟨x, by simp⟩
  have hs₀G : s₀ ∈ G := hsub.subset hs₀
  constructor
  · by_contra hcon
    push_neg at hcon
    rcases hcS.2.2.2.2.1 with hcap | hnst
    · have hb1 : (sharedContextSize G).1 ≤ leftLen s₀ := (scs_le_len hg s₀ hs₀G).1
      have hb2 : leftLen s₀ ≤ (S.map leftLen).foldr max 0 :=
        le_foldr_max _ _ (List.mem_map_of_mem _ hs₀)
      omega
    · refine hnst fun b1 hb1 b2 hb2 => ?_
      exact strongL_below hcG.2.2.1 _ (by omega) b1 (hsub.subset hb1) b2 (hsub.subset hb2)
  · by_contra hcon
    push_neg at hcon
    rcases hcS.2.2.2.2.2 with hcap | hnst
    · have hb1 : (sharedContextSize G).2 ≤ rightLen s₀ := (scs_le_len hg s₀ hs₀G).2
      have hb2 : rightLen s₀ ≤ (S.map rightLen).foldr max 0 :=
        le_foldr_max _ _ (List.mem_map_of_mem _ hs₀)
      omega
    · refine hnst fun b1 hb1 b2 hb2 => ?_
      exact strongR_below hcG.2.2.2.1 _ (by omega) b1 (hsub.subset hb1) b2 (hsub.subset hb2)

/-- Witness for C4: a two-member group against one of its singleton subsets. -/
theorem C4_witness :
    (sharedContextSize [⟨1, [['x']], [['p', 'q']], [['u']]⟩,
        ⟨2, [['x']], [['r', 'q']], [['u']]⟩]).1 ≤
      (sharedContextSize [⟨1, [['x']], [['p', 'q']], [['u']]⟩]).1 ∧
    (sharedContextSize [⟨1, [['x']], [['p', 'q']], [['u']]⟩,
        ⟨2, [['x']], [['r', 'q']], [['u']]⟩]).2 ≤
      (sharedContextSize [⟨1, [['x']], [['p', 'q']], [['u']]⟩]).2 :=
  C4_scs_antitone_in_members
    [⟨1, [['x']], [['p', 'q']], [['u']]⟩, ⟨2, [['x']], [['r', 'q']], [['u']]⟩]
    [⟨1, [['x']], [['p', 'q']], [['u']]⟩] [['x']]
    ⟨by decide, by decide⟩ (by decide) (by decide) (by decide) (by decide)

end Diff

namespace Diff

theorem foldl_occs_ne_nil {α : Type} [DecidableEq α] :
    ∀ (l acc : List α), acc ≠ [] →
    l.foldl (fun acc x => if x ∈ acc then acc else acc ++ [x]) acc ≠ [] := by
  intro l
  induction l with
  | nil => intro acc h; exact h
  | cons x xs ih =>
    intro acc h
    simp only [List.foldl_cons]
    split
    · exact ih acc h
    · exact ih (acc ++ [x]) (by simp)

theorem firstOccs_ne_nil {α : Type} [DecidableEq α] (xs : List α) (h : xs ≠ []) :
    firstOccs xs ≠ [] := by
  cases xs with
  | nil => exact absurd rfl h
  | cons x rest =>
    unfold firstOccs
    simp only [List.foldl_cons, List.not_mem_nil, if_neg, List.nil_append]
    exact foldl_occs_ne_nil rest [x] (by simp)

theorem foldl_occs_subset {α : Type} [DecidableEq α] :
    ∀ (l acc : List α) (x : α),
    x ∈ l.foldl (fun acc x => if x ∈ acc then acc else acc ++ [x]) acc →
    x ∈ acc ∨ x ∈ l := by
  intro l
  induction l with
  | nil => intro acc x h; exact Or.inl h
  | cons y ys ih =>
    intro acc x h
    simp only [List.foldl_cons] at h
    by_cases hy : y ∈ acc
    · rw [if_pos hy] at h
      rcases ih acc x h with h | h
      · exact Or.inl h
      · exact Or.inr (by simp [h])
    · rw [if_neg hy] at h
      rcases ih (acc ++ [y]) x h with h | h
      · rcases List.mem_append.mp h with h | h
        · exact Or.inl h
        · simp only [List.mem_singleton] at h
          exact Or.inr (by simp [h])
      · exact Or.inr (by simp [h])

theorem firstOccs_subset {α : Type} [DecidableEq α] (xs : List α) :
    ∀ x ∈ firstOccs xs, x ∈ xs := by
  intro x hx
  rcases foldl_occs_subset xs [] x hx with h | h
  · simp at h
  · exact h

theorem firstMostCommon_foldl_mem {α : Type} [DecidableEq α] (xs : List α) :
    ∀ (l : List α) (acc : Option (α × Nat)),
    (∀ q, acc = some q → q.1 ∈ xs) → (∀ x ∈ l, x ∈ xs) →
    ∀ q, l.foldl
      (fun acc v =>
        match acc with
        | none => some (v, xs.count v)
        | some (w, c) => if c < xs.count v then some (v, xs.count v) else some (w, c))
      acc = some q → q.1 ∈ xs := by
  intro l
  induction l with
  | nil => intro acc hacc _ q h; exact hacc q h
  | cons v vs ih =>
    intro acc hacc hl q h
    simp only [List.foldl_cons] at h
    apply ih _ _ (fun x hx => hl x (by simp [hx])) q h
    intro q' hq'
    cases acc with
    | none =>
      injection hq' with hq''
      rw [← hq'']
      exact hl v (by simp)
    | some p =>
      rcases p with ⟨w, c⟩
      simp only at hq'
      split at hq'
      · injection hq' with hq''
        rw [← hq'']
        exact hl v (by simp)
      · injection hq' with hq''
        rw [← hq'']
        exact hacc (w, c) rfl

theorem firstMostCommon_mem {α : Type} [DecidableEq α] (xs : List α) (p : α × Nat)
    (h : firstMostCommon xs = some p) : p.1 ∈ xs := by
  unfold firstMostCommon at h
  exact firstMostCommon_foldl_mem xs (firstOccs xs) none (by intro q hq; simp at hq)
    (firstOccs_subset xs) p h

theorem firstMostCommon_isSome {α : Type} [DecidableEq α] (xs : List α) (h : xs ≠ []) :
    ∃ p, firstMostCommon xs = some p := by
  unfold firstMostCommon
  have hocc := firstOccs_ne_nil xs h
  have hsome : ∀ (l : List α) (q : α × Nat),
      ∃ p, l.foldl
        (fun acc v =>
          match acc with
          | none => some (v, xs.count v)
          | some (w, c) => if c < xs.count v then some (v, xs.count v) else some (w, c))
        (some q) = some p := by
    intro l
    induction l with
    | nil => intro q; exact ⟨q, rfl⟩
    | cons v vs ih =>
      intro q
      rcases q with ⟨w, c⟩
      simp only [List.foldl_cons]
      split
      · exact ih _
      · exact ih _
  cases hocc' : firstOccs xs with
  | nil => exact absurd hocc' hocc
  | cons y ys =>
    simp only [List.foldl_cons]
    exact hsome ys (y, xs.count y)

theorem maxByCount_mem (cs : List (Nat × Nat × (List Str × Nat)))
    (c : Nat × Nat × (List Str × Nat)) (h : maxByCount cs = some c) : c ∈ cs := by
  cases cs with
  | nil => simp [maxByCount] at h
  | cons c0 rest =>
    simp only [maxByCount, Option.some.injEq] at h
    have hfold : ∀ (l : List (Nat × Nat × (List Str × Nat))) acc, acc ∈ c0 :: rest →
        (∀ x ∈ l, x ∈ c0 :: rest) →
        l.foldl (fun best c' => if best.2.2.2 < c'.2.2.2 then c' else best) acc ∈ c0 :: rest := by
      intro l
      induction l with
      | nil => intro acc hacc _; exact hacc
      | cons x xs ih =>
        intro acc hacc hl
        simp only [List.foldl_cons]
        split
        · exact ih x (hl x (by simp)) (fun y hy => hl y (by simp [hy]))
        · exact ih acc hacc (fun y hy => hl y (by simp [hy]))
    rw [← h]
    exact hfold rest c0 (by simp) (fun y hy => by simp [hy])

theorem largestSubgroup_sublist (blocks : List DiffWithContext) :
    (largestSubgroup blocks).Sublist blocks := by
  unfold largestSubgroup
  split
  · exact List.Sublist.refl blocks
  · dsimp only
    split
    · exact List.take_sublist 1 blocks
    · exact List.filter_sublist blocks

theorem largestSubgroup_ne_nil (blocks : List DiffWithContext) (hne : blocks ≠ []) :
    largestSubgroup blocks ≠ [] := by
  unfold largestSubgroup
  split
  · exact hne
  · next hlen =>
    dsimp only
    split
    · next hm =>
      cases blocks with
      | nil => exact absurd rfl hne
      | cons b rest => simp
    · next ll rr ctx cnt hm =>
      have hcand := maxByCount_mem _ _ hm
      rcases List.mem_append.mp hcand with hc | hc
      · have hgne : (blocks.map fun b =>
            withContext b ((sharedContextSize blocks).1 + 1)
              (sharedContextSize blocks).2 [] []) ≠ [] := by simpa using hne
        rcases firstMostCommon_isSome _ hgne with ⟨p, hp⟩
        have hc' : (ll, rr, ctx, cnt) =
            ((sharedContextSize blocks).1 + 1, (sharedContextSize blocks).2, p) := by
          split at hc
          · rw [hp] at hc
            simpa using hc
          · simp at hc
        rcases List.mem_map.mp (firstMostCommon_mem _ _ hp) with ⟨b, hb, hbp⟩
        have hbmem : b ∈ blocks.filter fun b => decide (withContext b ll rr [] [] = ctx) := by
          rw [List.mem_filter]
          refine ⟨hb, ?_⟩
          simp only [Prod.mk.injEq] at hc'
          rw [hc'.1, hc'.2.1, decide_eq_true_eq, hbp]
          have := hc'.2.2
          rw [Prod.ext_iff] at this
          exact this.1.symm
        intro hfil
        rw [hfil] at hbmem
        simp at hbmem
      · have hgne : (blocks.map fun b =>
            withContext b (sharedContextSize blocks).1
              ((sharedContextSize blocks).2 + 1) [] []) ≠ [] := by simpa using hne
        rcases firstMostCommon_isSome _ hgne with ⟨p, hp⟩
        have hc' : (ll, rr, ctx, cnt) =
            ((sharedContextSize blocks).1, (sharedContextSize blocks).2 + 1, p) := by
          split at hc
          · rw [hp] at hc
            simpa using hc
          · simp at hc
        rcases List.mem_map.mp (firstMostCommon_mem _ _ hp) with ⟨b, hb, hbp⟩
        have hbmem : b ∈ blocks.filter fun b => decide (withContext b ll rr [] [] = ctx) := by
          rw [List.mem_filter]
          refine ⟨hb, ?_⟩
          simp only [Prod.mk.injEq] at hc'
          rw [hc'.1, hc'.2.1, decide_eq_true_eq, hbp]
          have := hc'.2.2
          rw [Prod.ext_iff] at this
          exact this.1.symm
        intro hfil
        rw [hfil] at hbmem
        simp at hbmem

theorem sublist_filter_perm {α : Type} [DecidableEq α] (L S : List α) (hnd : L.Nodup)
    (hsub : S.Sublist L) : (S ++ L.filter fun x => decide (x ∉ S)).Perm L := by
  rw [List.perm_iff_count]
  intro a
  rw [List.count_append]
  by_cases ha : a ∈ L
  · have hcL : L.count a = 1 := List.count_eq_one_of_mem hnd ha
    by_cases haS : a ∈ S
    · have hcS : S.count a = 1 := List.count_eq_one_of_mem (hsub.nodup hnd) haS
      have hcF : (L.filter fun x => decide (x ∉ S)).count a = 0 := by
        rw [List.count_eq_zero]
        intro hmem
        rw [List.mem_filter] at hmem
        have : a ∉ S := by simpa using hmem.2
        exact this haS
      omega
    · have hcS : S.count a = 0 := List.count_eq_zero.mpr haS
      have hcF : (L.filter fun x => decide (x ∉ S)).count a = L.count a := by
        rw [List.count_filter]
        simp [haS]
      omega
  · have hcL : L.count a = 0 := List.count_eq_zero.mpr ha
    have hcS : S.count a = 0 := List.count_eq_zero.mpr (fun h => ha (hsub.subset h))
    have hcF : (L.filter fun x => decide (x ∉ S)).count a = 0 := by
      rw [List.count_eq_zero]
      intro hmem
      exact ha (List.mem_of_mem_filter hmem)
    omega

theorem splitLoop_props (shared : Nat × Nat) :
    ∀ (fuel : Nat) (blocks : List DiffWithContext) (groups : List (List DiffWithContext)),
    blocks.Nodup →
    ((splitLoop shared fuel blocks groups).flatten).Perm (groups.flatten ++ blocks) ∧
    (∀ g ∈ splitLoop shared fuel blocks groups, g ∈ groups ∨ g ≠ []) := by
  intro fuel
  induction fuel with
  | zero =>
    intro blocks groups hnd
    rw [splitLoop]
    by_cases hb : blocks.isEmpty
    · rw [if_pos hb]
      constructor
      · rw [List.isEmpty_iff] at hb
        simp [hb]
      · intro g hg
        rw [List.append_nil] at hg
        exact Or.inl hg
    · rw [if_neg hb]
      constructor
      · rw [List.flatten_append]
        simp
      · intro g hg
        rcases List.mem_append.mp hg with h | h
        · exact Or.inl h
        · simp only [List.mem_singleton] at h
          rw [h]
          exact Or.inr (by simpa [List.isEmpty_iff] using hb)
  | succ fuel ih =>
    intro blocks groups hnd
    rw [splitLoop]
    by_cases hc : blocks ≠ [] ∧ sharedContextSize blocks = shared
    · rw [if_pos hc]
      have hsub := largestSubgroup_sublist blocks
      have hgne := largestSubgroup_ne_nil blocks hc.1
      have hrec := ih (blocks.filter fun b => decide (b ∉ largestSubgroup blocks))
        (groups ++ [largestSubgroup blocks]) (hnd.filter _)
      constructor
      · refine hrec.1.trans ?_
        rw [List.flatten_append]
        simp only [List.flatten_cons, List.flatten_nil, List.append_nil]
        rw [List.append_assoc]
        exact List.Perm.append_left groups.flatten (sublist_filter_perm blocks _ hnd hsub)
      · intro g hg
        rcases hrec.2 g hg with h | h
        · rcases List.mem_append.mp h with h | h
          · exact Or.inl h
          · simp only [List.mem_singleton] at h
            rw [h]
            exact Or.inr hgne
        · exact Or.inr h
    · rw [if_neg hc]
      by_cases hb : blocks.isEmpty
      · rw [if_pos hb]
        constructor
        · rw [List.isEmpty_iff] at hb
          simp [hb]
        · intro g hg
          rw [List.append_nil] at hg
          exact Or.inl hg
      · rw [if_neg hb]
        constructor
        · rw [List.flatten_append]
          simp
        · intro g hg
          rcases List.mem_append.mp hg with h | h
          · exact Or.inl h
          · simp only [List.mem_singleton] at h
            rw [h]
            exact Or.inr (by simpa [List.isEmpty_iff] using hb)

theorem splitIntoSubgroups_partition (blocks : List DiffWithContext) (hnd : blocks.Nodup) :
    ((splitIntoSubgroups blocks).flatten).Perm blocks ∧
    ∀ g ∈ splitIntoSubgroups blocks, g ≠ [] := by
  have h := splitLoop_props (sharedContextSize blocks) (blocks.length + 1) blocks [] hnd
  constructor
  · simpa using h.1
  · intro g hg
    rcases h.2 g hg with hmem | hne
    · simp at hmem
    · exact hne

theorem pairwise_disjoint_of_flatten_nodup {α : Type} (gs : List (List α))
    (h : gs.flatten.Nodup) :
    List.Pairwise (fun g1 g2 => ∀ x ∈ g1, x ∉ g2) gs := by
  induction gs with
  | nil => exact List.Pairwise.nil
  | cons g rest ih =>
    rw [List.flatten_cons, List.nodup_append] at h
    refine List.Pairwise.cons ?_ (ih h.2.1)
    intro g2 hg2 x hx hx2
    exact h.2.2 hx (List.mem_flatten.mpr ⟨g2, hg2, hx2⟩)

theorem nodup_of_flatten_nodup {α : Type} (gs : List (List α)) (h : gs.flatten.Nodup) :
    ∀ g ∈ gs, g.Nodup := by
  induction gs with
  | nil => intro g hg; simp at hg
  | cons g0 rest ih =>
    rw [List.flatten_cons, List.nodup_append] at h
    intro g hg
    rcases List.mem_cons.mp hg with rfl | hg
    · exact h.1
    · exact ih h.2.1 g hg

theorem flatten_map_perm {α : Type} (f : List α → List α) :
    ∀ gs : List (List α), (∀ g ∈ gs, (f g).Perm g) → ((gs.map f).flatten).Perm gs.flatten := by
  intro gs
  induction gs with
  | nil => intro _; exact List.Perm.refl _
  | cons g rest ih =>
    intro h
    rw [List.map_cons, List.flatten_cons, List.flatten_cons]
    exact (h g (by simp)).append (ih fun g' hg' => h g' (by simp [hg']))

theorem hierLeavesF_perm :
    ∀ (fuel : Nat) (blocks : List DiffWithContext), blocks.Nodup →
    (hierLeavesF fuel blocks).Perm blocks := by
  intro fuel
  induction fuel with
  | zero => intro blocks _; exact List.Perm.refl _
  | succ fuel ih =>
    intro blocks hnd
    rw [hierLeavesF]
    split
    · exact List.Perm.refl _
    · have hpart := splitIntoSubgroups_partition blocks hnd
      have hflatnd : ((splitIntoSubgroups blocks).flatten).Nodup := hpart.1.symm.nodup hnd
      refine List.Perm.trans ?_ hpart.1
      exact flatten_map_perm _ _ fun g hg =>
        ih g (nodup_of_flatten_nodup _ hflatnd g hg)

/-- **C6** (confirmed).  For a nonempty collection of pairwise distinct
members, `split_into_subgroups` partitions it exactly — every subgroup is
nonempty, the subgroups are pairwise disjoint, and their union is the
original collection — and the leaves of the recursive hierarchy built by
`show_hierarchically` are exactly the original members. -/
theorem C6_hierarchy_partitions_group (blocks : List DiffWithContext)
    (hne : blocks ≠ []) (hnd : blocks.Nodup) :
    (∀ g ∈ splitIntoSubgroups blocks, g ≠ []) ∧
    ((splitIntoSubgroups blocks).flatten).Perm blocks ∧
    List.Pairwise (fun g1 g2 => ∀ x ∈ g1, x ∉ g2) (splitIntoSubgroups blocks) ∧
    (hierLeaves blocks).Perm blocks := by
  have hpart := splitIntoSubgroups_partition blocks hnd
  refine ⟨hpart.2, hpart.1, ?_, hierLeavesF_perm blocks.length blocks hnd⟩
  exact pairwise_disjoint_of_flatten_nodup _ (hpart.1.symm.nodup hnd)

/-- Witness for C6 at a concrete three-member group. -/
theorem C6_witness :
    (∀ g ∈ splitIntoSubgroups [⟨1, [['x']], [['p', 'q']], [['u']]⟩,
        ⟨2, [['x']], [['r', 'q']], [['u']]⟩, ⟨3, [['x']], [['r', 'q']], [['v']]⟩], g ≠ []) ∧
    ((splitIntoSubgroups [⟨1, [['x']], [['p', 'q']], [['u']]⟩,
        ⟨2, [['x']], [['r', 'q']], [['u']]⟩, ⟨3, [['x']], [['r', 'q']], [['v']]⟩]).flatten).Perm
      [⟨1, [['x']], [['p', 'q']], [['u']]⟩, ⟨2, [['x']], [['r', 'q']], [['u']]⟩,
        ⟨3, [['x']], [['r', 'q']], [['v']]⟩] :=
  ⟨(C6_hierarchy_partitions_group _ (by decide) (by decide)).1,
   (C6_hierarchy_partitions_group _ (by decide) (by decide)).2.1⟩

end Diff

namespace Mandarin

/-- A CC-CEDICT entry `(traditional, simplified, pinyin)` as produced by
`parse_entry` in `tools/mandarin.py`. -/
abbrev Entry := Str × Str × Str

/-- The ambiguity test inside `sorted_entries`: the entry's traditional or
simplified form occurs in more than one entry
(`trad_count[trad] > 1 or simp_count[simp] > 1`). -/
def isAmbiguous (entries : List Entry) (e : Entry) : Bool :=
  decide (1 < entries.countP fun e' => e'.1 == e.1) ||
  decide (1 < entries.countP fun e' => e'.2.1 == e.2.1)

/-- Python's comparison of `(trad, simp, pinyin)` tuples: lexicographic,
strings by code point. -/
def entryLe (e1 e2 : Entry) : Prop :=
  e1.1 < e2.1 ∨ (e1.1 = e2.1 ∧ (e1.2.1 < e2.2.1 ∨ (e1.2.1 = e2.2.1 ∧ e1.2.2 ≤ e2.2.2)))

instance : DecidableRel entryLe := fun e1 e2 => by unfold entryLe; infer_instance

instance : IsTotal Entry entryLe := ⟨by
  intro a b
  unfold entryLe
  rcases lt_trichotomy a.1 b.1 with h | h | h
  · exact Or.inl (Or.inl h)
  · rcases lt_trichotomy a.2.1 b.2.1 with h2 | h2 | h2
    · exact Or.inl (Or.inr ⟨h, Or.inl h2⟩)
    · rcases le_total a.2.2 b.2.2 with h3 | h3
      · exact Or.inl (Or.inr ⟨h, Or.inr ⟨h2, h3⟩⟩)
      · exact Or.inr (Or.inr ⟨h.symm, Or.inr ⟨h2.symm, h3⟩⟩)
    · exact Or.inr (Or.inr ⟨h.symm, Or.inl h2⟩)
  · exact Or.inr (Or.inl h)⟩

instance : IsTrans Entry entryLe := ⟨by
  intro a b c hab hbc
  unfold entryLe at hab hbc ⊢
  rcases hab with h1 | ⟨ha, hab⟩
  · rcases hbc with h2 | ⟨hb, _⟩
    · exact Or.inl (h1.trans h2)
    · exact Or.inl (lt_of_lt_of_le h1 (le_of_eq hb))
  · rcases hbc with h2 | ⟨hb, hbc⟩
    · exact Or.inl (lt_of_le_of_lt (le_of_eq ha) h2)
    · refine Or.inr ⟨ha.trans hb, ?_⟩
      rcases hab with h1 | ⟨ha2, hab⟩
      · rcases hbc with h2 | ⟨hb2, _⟩
        · exact Or.inl (h1.trans h2)
        · exact Or.inl (lt_of_lt_of_le h1 (le_of_eq hb2))
      · rcases hbc with h2 | ⟨hb2, hbc⟩
        · exact Or.inl (lt_of_le_of_lt (le_of_eq ha2) h2)
        · exact Or.inr ⟨ha2.trans hb2, le_trans hab hbc⟩⟩

/-- The sort key of `sorted_entries` for ambiguous entries:
`preference.index(entry)` (all entries present in the guarded branch). -/
def prefLe (preference : List Entry) (e1 e2 : Entry) : Prop :=
  preference.indexOf e1 ≤ preference.indexOf e2

instance (preference : List Entry) : DecidableRel (prefLe preference) :=
  fun a b => by unfold prefLe; infer_instance

instance (preference : List Entry) : IsTotal Entry (prefLe preference) :=
  ⟨fun a b => Nat.le_total _ _⟩

instance (preference : List Entry) : IsTrans Entry (prefLe preference) :=
  ⟨fun a b c => Nat.le_trans⟩

/-- `sorted_entries(entries, preference)`.  CPython's `sorted` with a key
function applies the key to every element up front, in list order, so the
call raises `ValueError` at the first ambiguous entry (in partition order)
missing from the preference list; the error value carries the entry named
in the message.  When every ambiguous entry is present the result is the
ambiguous entries sorted by preference position followed by the remaining
entries in tuple order. -/
def sortedEntries (entries preference : List Entry) : Except Entry (List Entry) :=
  match (entries.filter (isAmbiguous entries)).find? fun e => !(preference.contains e) with
  | some e => Except.error e
  | none =>
    Except.ok (List.insertionSort (prefLe preference) (entries.filter (isAmbiguous entries)) ++
      List.insertionSort entryLe (entries.filter fun e => !(isAmbiguous entries e)))

/-- **C10** (confirmed).  `sorted_entries` fails, naming an offending entry,
exactly when some ambiguous entry is missing from the preference list; when
every ambiguous entry is present it returns the ambiguous entries ordered by
preference position followed by the unambiguous ones in sorted order. -/
theorem C10_sorted_entries_errors_iff (entries preference : List Entry) :
    ((∃ e, sortedEntries entries preference = Except.error e) ↔
      ∃ e ∈ entries, isAmbiguous entries e = true ∧ e ∉ preference) ∧
    (∀ e, sortedEntries entries preference = Except.error e →
      e ∈ entries ∧ isAmbiguous entries e = true ∧ e ∉ preference) ∧
    (∀ l, sortedEntries entries preference = Except.ok l →
      ∃ amb unamb, l = amb ++ unamb ∧
        amb.Perm (entries.filter (isAmbiguous entries)) ∧
        List.Sorted (prefLe preference) amb ∧
        unamb.Perm (entries.filter fun e => !(isAmbiguous entries e)) ∧
        List.Sorted entryLe unamb) := by
  have herr : ∀ e, sortedEntries entries preference = Except.error e →
      e ∈ entries ∧ isAmbiguous entries e = true ∧ e ∉ preference := by
    intro e he
    unfold sortedEntries at he
    cases hf : (entries.filter (isAmbiguous entries)).find?
        fun e => !(preference.contains e) with
    | none => rw [hf] at he; simp at he
    | some e' =>
      rw [hf] at he
      simp only [Except.error.injEq] at he
      subst he
      have hmem := List.mem_of_find?_eq_some hf
      have hpred := List.find?_some hf
      rw [List.mem_filter] at hmem
      refine ⟨hmem.1, hmem.2, ?_⟩
      simp only [Bool.not_eq_true'] at hpred
      intro hcon
      have hnotin : e' ∉ preference := by simpa using hpred
      exact hnotin hcon
  refine ⟨⟨?_, ?_⟩, herr, ?_⟩
  · rintro ⟨e, he⟩
    exact ⟨e, herr e he⟩
  · rintro ⟨e, hmem, hamb, hpref⟩
    unfold sortedEntries
    cases hf : (entries.filter (isAmbiguous entries)).find?
        fun e => !(preference.contains e) with
    | some e' => exact ⟨e', rfl⟩
    | none =>
      exfalso
      have := List.find?_eq_none.mp hf e (List.mem_filter.mpr ⟨hmem, hamb⟩)
      simp only [Bool.not_eq_true', Bool.not_eq_false] at this
      rw [List.elem_iff] at this
      exact hpref this
  · intro l hl
    unfold sortedEntries at hl
    cases hf : (entries.filter (isAmbiguous entries)).find?
        fun e => !(preference.contains e) with
    | some e' => rw [hf] at hl; simp at hl
    | none =>
      rw [hf] at hl
      simp only [Except.ok.injEq] at hl
      refine ⟨_, _, hl.symm, List.perm_insertionSort _ _, List.sorted_insertionSort _ _,
        List.perm_insertionSort _ _, List.sorted_insertionSort _ _⟩

/-- Witness for C10: two entries sharing a traditional form, one missing
from the preference list, produce an error naming an offending entry. -/
theorem C10_witness :
    (("t".data, "s".data, "p".data) : Entry) ∈
        [(("t".data, "s".data, "p".data) : Entry), ("t".data, "z".data, "q".data)] ∧
      isAmbiguous [(("t".data, "s".data, "p".data) : Entry), ("t".data, "z".data, "q".data)]
        ("t".data, "s".data, "p".data) = true ∧
      (("t".data, "s".data, "p".data) : Entry) ∉ ([] : List Entry) :=
  (C10_sorted_entries_errors_iff
    [(("t".data, "s".data, "p".data) : Entry), ("t".data, "z".data, "q".data)] []).2.1
    ("t".data, "s".data, "p".data) (by rfl)

end Mandarin

namespace Difflib

/-- Match `x` lies entirely before match `y` in both coordinates. -/
def SepM (x y : Nat × Nat × Nat) : Prop :=
  x.1 + x.2.2 ≤ y.1 ∧ x.2.1 + x.2.2 ≤ y.2.1

/-- Box `(alo, ahi, blo, bhi)` of a match. -/
def toBox (m : Nat × Nat × Nat) : Nat × Nat × Nat × Nat :=
  (m.1, m.1 + m.2.2, m.2.1, m.2.1 + m.2.2)

/-- Box `x` lies entirely before box `y` in both coordinates. -/
def SepBox (x y : Nat × Nat × Nat × Nat) : Prop := x.2.1 ≤ y.1 ∧ x.2.2.2 ≤ y.2.2.1

/-- Two boxes are separated, one way or the other. -/
def SymSep (x y : Nat × Nat × Nat × Nat) : Prop := SepBox x y ∨ SepBox y x

theorem symSep_symm : ∀ {x y}, SymSep x y → SymSep y x := fun h => h.symm

/-- `C` is contained in `B` in both coordinates. -/
def SubBox (C B : Nat × Nat × Nat × Nat) : Prop :=
  B.1 ≤ C.1 ∧ C.2.1 ≤ B.2.1 ∧ B.2.2.1 ≤ C.2.2.1 ∧ C.2.2.2 ≤ B.2.2.2

theorem symSep_of_subBox {C B X : Nat × Nat × Nat × Nat} (hsub : SubBox C B)
    (h : SymSep B X) : SymSep C X := by
  rcases h with h | h
  · exact Or.inl ⟨le_trans hsub.2.1 h.1, le_trans hsub.2.2.2 h.2⟩
  · exact Or.inr ⟨le_trans h.1 hsub.1, le_trans h.2 hsub.2.2.1⟩

theorem gmbLoop_inv (a b : Str) :
    ∀ (fuel : Nat) (queue : List (Nat × Nat × Nat × Nat)) (acc : List (Nat × Nat × Nat)),
    queueMeasure queue ≤ fuel →
    (∀ s ∈ queue, s.2.1 ≤ a.length ∧ s.2.2.2 ≤ b.length) →
    List.Pairwise SymSep (queue ++ acc.map toBox) →
    (∀ m ∈ acc, 1 ≤ m.2.2 ∧ m.1 + m.2.2 ≤ a.length ∧ m.2.1 + m.2.2 ≤ b.length) →
    List.Pairwise SymSep ((gmbLoop a b fuel queue acc).map toBox) ∧
    (∀ m ∈ gmbLoop a b fuel queue acc, 1 ≤ m.2.2 ∧ m.1 + m.2.2 ≤ a.length ∧
      m.2.1 + m.2.2 ≤ b.length) := by
  intro fuel
  induction fuel with
  | zero =>
    intro queue acc hfuel hq hpw hacc
    cases queue with
    | nil =>
      rw [gmbLoop]
      exact ⟨by simpa using hpw, hacc⟩
    | cons s rest =>
      exfalso
      rcases s with ⟨alo, ahi, blo, bhi⟩
      simp [queueMeasure] at hfuel
  | succ fuel ih =>
    intro queue acc hfuel hq hpw hacc
    cases queue with
    | nil =>
      rw [gmbLoop]
      exact ⟨by simpa using hpw, hacc⟩
    | cons s rest =>
      rcases s with ⟨alo, ahi, blo, bhi⟩
      rw [gmbLoop]
      cases hm : findLongestMatch a b alo ahi blo bhi with
      | mk i jk =>
        rcases jk with ⟨j, k⟩
        simp only
        by_cases hk : k = 0
        · rw [if_pos hk]
          refine ih rest acc ?_ (fun s hs => hq s (by simp [hs])) ?_ hacc
          · simp only [queueMeasure, List.map_cons, List.sum_cons, List.length_cons] at hfuel ⊢
            omega
          · rw [List.cons_append] at hpw
            exact hpw.of_cons
        · rw [if_neg hk]
          have hb := @findLongestMatch_bounds a b alo ahi blo bhi
            (by rw [hm]; exact Nat.pos_of_ne_zero hk)
          rw [hm] at hb
          simp only at hb
          obtain ⟨hbi, hbj, hbia, hbjb⟩ := hb
          have hbox := hq (alo, ahi, blo, bhi) (by simp)
          simp only at hbox
          rw [List.cons_append] at hpw
          have hB := List.pairwise_cons.mp hpw
          set q2 : List (Nat × Nat × Nat × Nat) :=
            if i + k < ahi ∧ j + k < bhi then [(i + k, ahi, j + k, bhi)] else [] with hq2
          set q1 : List (Nat × Nat × Nat × Nat) :=
            if alo < i ∧ blo < j then [(alo, i, blo, j)] else [] with hq1
          have hq2sub : ∀ C ∈ q2, SubBox C (alo, ahi, blo, bhi) := by
            intro C hC
            rw [hq2] at hC
            split at hC
            · simp only [List.mem_singleton] at hC
              rw [hC]
              show alo ≤ i + k ∧ ahi ≤ ahi ∧ blo ≤ j + k ∧ bhi ≤ bhi
              omega
            · simp at hC
          have hq1sub : ∀ C ∈ q1, SubBox C (alo, ahi, blo, bhi) := by
            intro C hC
            rw [hq1] at hC
            split at hC
            · simp only [List.mem_singleton] at hC
              rw [hC]
              show alo ≤ alo ∧ i ≤ ahi ∧ blo ≤ blo ∧ j ≤ bhi
              omega
            · simp at hC
          have hMsub : SubBox (toBox (i, j, k)) (alo, ahi, blo, bhi) := by
            show alo ≤ i ∧ i + k ≤ ahi ∧ blo ≤ j ∧ j + k ≤ bhi
            omega
          refine ih (q2 ++ q1 ++ rest) (acc ++ [(i, j, k)]) ?_ ?_ ?_ ?_
          · rw [queueMeasure_append, queueMeasure_append, hq2, hq1]
            simp only [queueMeasure, List.map_cons, List.sum_cons, List.length_cons] at hfuel
            split_ifs <;> simp [queueMeasure] <;> omega
          · intro s hs
            rcases List.mem_append.mp hs with hs | hs
            · rcases List.mem_append.mp hs with hs | hs
              · obtain ⟨h1, h2, h3, h4⟩ := hq2sub s hs
                exact ⟨le_trans h2 hbox.1, le_trans h4 hbox.2⟩
              · obtain ⟨h1, h2, h3, h4⟩ := hq1sub s hs
                exact ⟨le_trans h2 hbox.1, le_trans h4 hbox.2⟩
            · exact hq s (by simp [hs])
          · -- pairwise of the new list, via a permutation to new-items-first form
            have hnewpw : List.Pairwise SymSep ((q2 ++ q1 ++ [toBox (i, j, k)]) ++
                (rest ++ acc.map toBox)) := by
              rw [List.pairwise_append]
              refine ⟨?_, hB.2, ?_⟩
              · -- pairwise among the at most three new boxes
                rw [List.pairwise_append]
                refine ⟨?_, ?_, ?_⟩
                · rw [List.pairwise_append]
                  refine ⟨?_, ?_, ?_⟩
                  · rw [hq2]; split_ifs <;> simp
                  · rw [hq1]; split_ifs <;> simp
                  · intro x hx y hy
                    rw [hq2] at hx
                    rw [hq1] at hy
                    split at hx
                    · split at hy
                      · simp only [List.mem_singleton] at hx hy
                        rw [hx, hy]
                        exact Or.inr ⟨by show i ≤ i + k; omega, by show j ≤ j + k; omega⟩
                      · simp at hy
                    · simp at hx
                · simp
                · intro x hx y hy
                  simp only [List.mem_singleton] at hy
                  rcases List.mem_append.mp hx with hx | hx
                  · rw [hq2] at hx
                    split at hx
                    · simp only [List.mem_singleton] at hx
                      rw [hx, hy]
                      exact Or.inr ⟨by show i + k ≤ i + k; omega,
                        by show j + k ≤ j + k; omega⟩
                    · simp at hx
                  · rw [hq1] at hx
                    split at hx
                    · simp only [List.mem_singleton] at hx
                      rw [hx, hy]
                      exact Or.inl ⟨by show i ≤ i; omega, by show j ≤ j; omega⟩
                    · simp at hx
              · intro x hx y hy
                have hsx : SubBox x (alo, ahi, blo, bhi) := by
                  rcases List.mem_append.mp hx with hx | hx
                  · rcases List.mem_append.mp hx with hx | hx
                    · exact hq2sub x hx
                    · exact hq1sub x hx
                  · simp only [List.mem_singleton] at hx
                    rw [hx]
                    exact hMsub
                exact symSep_of_subBox hsx (hB.1 y hy)
            have hperm : ((q2 ++ q1 ++ [toBox (i, j, k)]) ++ (rest ++ acc.map toBox)).Perm
                ((q2 ++ q1 ++ rest) ++ (acc ++ [(i, j, k)]).map toBox) := by
              rw [List.map_append]
              simp only [List.map_cons, List.map_nil]
              rw [List.perm_iff_count]
              intro x
              simp only [List.count_append]
              omega
            exact (hperm.pairwise_iff (fun h => symSep_symm h)).mp hnewpw
          · intro m hmem
            rcases List.mem_append.mp hmem with hmem | hmem
            · exact hacc m hmem
            · simp only [List.mem_singleton] at hmem
              rw [hmem]
              show 1 ≤ k ∧ i + k ≤ a.length ∧ j + k ≤ b.length
              omega

theorem sepM_of_symSep_matchLe {x y : Nat × Nat × Nat} (hk : 1 ≤ y.2.2)
    (hle : matchLe x y) (hsep : SymSep (toBox x) (toBox y)) : SepM x y := by
  rcases x with ⟨xi, xj, xk⟩
  rcases y with ⟨yi, yj, yk⟩
  simp only at hk
  simp only [matchLe] at hle
  rcases hsep with h | h
  · exact ⟨h.1, h.2⟩
  · exfalso
    have h1 : yi + yk ≤ xi := h.1
    omega

theorem mergeAdj_props (la lb : Nat) :
    ∀ (l : List (Nat × Nat × Nat)) (cur : Nat × Nat × Nat),
    List.Pairwise SepM l →
    (∀ m ∈ l, m.1 + m.2.2 ≤ la ∧ m.2.1 + m.2.2 ≤ lb) →
    (∀ y ∈ l, SepM cur y) →
    cur.1 + cur.2.2 ≤ la → cur.2.1 + cur.2.2 ≤ lb →
    List.Pairwise SepM (mergeAdj cur l) ∧
    (∀ m ∈ mergeAdj cur l, m.1 + m.2.2 ≤ la ∧ m.2.1 + m.2.2 ≤ lb ∧ 1 ≤ m.2.2 ∧
      cur.1 ≤ m.1 ∧ cur.2.1 ≤ m.2.1) := by
  intro l
  induction l with
  | nil =>
    intro cur hpw hb hs hca hcb
    rcases cur with ⟨i1, j1, k1⟩
    rw [mergeAdj]
    split_ifs with h
    · refine ⟨by simp, ?_⟩
      intro m hm
      simp only [List.mem_singleton] at hm
      rw [hm]
      exact ⟨hca, hcb, by show 1 ≤ k1; omega, le_refl _, le_refl _⟩
    · simp
  | cons y rest ih =>
    intro cur hpw hb hs hca hcb
    rcases cur with ⟨i1, j1, k1⟩
    rcases y with ⟨i2, j2, k2⟩
    have hpwc := List.pairwise_cons.mp hpw
    have hsY : i1 + k1 ≤ i2 ∧ j1 + k1 ≤ j2 := hs (i2, j2, k2) (by simp)
    have hbY : i2 + k2 ≤ la ∧ j2 + k2 ≤ lb := hb (i2, j2, k2) (by simp)
    rw [mergeAdj]
    split_ifs with hadj hk1
    · -- adjacent: absorb into the running block
      have hres := ih (i1, j1, k1 + k2) hpwc.2
        (fun m hm => hb m (by simp [hm]))
        (fun z hz => by
          have h2 := hpwc.1 z hz
          have h2a : i2 + k2 ≤ z.1 := h2.1
          have h2b : j2 + k2 ≤ z.2.1 := h2.2
          exact ⟨by show i1 + (k1 + k2) ≤ z.1; omega, by show j1 + (k1 + k2) ≤ z.2.1; omega⟩)
        (by show i1 + (k1 + k2) ≤ la; omega)
        (by show j1 + (k1 + k2) ≤ lb; omega)
      exact ⟨hres.1, fun m hm => hres.2 m hm⟩
    · -- not adjacent, running block nonempty: emit it
      have hres := ih (i2, j2, k2) hpwc.2
        (fun m hm => hb m (by simp [hm])) hpwc.1 hbY.1 hbY.2
      constructor
      · rw [List.singleton_append, List.pairwise_cons]
        refine ⟨fun m hm => ?_, hres.1⟩
        have hp1 : i2 ≤ m.1 := (hres.2 m hm).2.2.2.1
        have hp2 : j2 ≤ m.2.1 := (hres.2 m hm).2.2.2.2
        exact ⟨by show i1 + k1 ≤ m.1; omega, by show j1 + k1 ≤ m.2.1; omega⟩
      · intro m hm
        rw [List.singleton_append, List.mem_cons] at hm
        rcases hm with hm | hm
        · rw [hm]
          exact ⟨hca, hcb, by show 1 ≤ k1; omega, le_refl _, le_refl _⟩
        · have hp := hres.2 m hm
          have hp1 : i2 ≤ m.1 := hp.2.2.2.1
          have hp2 : j2 ≤ m.2.1 := hp.2.2.2.2
          exact ⟨hp.1, hp.2.1, hp.2.2.1, by show i1 ≤ m.1; omega,
            by show j1 ≤ m.2.1; omega⟩
    · -- not adjacent, empty running block: emit nothing
      have hres := ih (i2, j2, k2) hpwc.2
        (fun m hm => hb m (by simp [hm])) hpwc.1 hbY.1 hbY.2
      rw [List.nil_append]
      refine ⟨hres.1, fun m hm => ?_⟩
      have hp := hres.2 m hm
      have hp1 : i2 ≤ m.1 := hp.2.2.2.1
      have hp2 : j2 ≤ m.2.1 := hp.2.2.2.2
      exact ⟨hp.1, hp.2.1, hp.2.2.1, by show i1 ≤ m.1; omega,
        by show j1 ≤ m.2.1; omega⟩

theorem getMatchingBlocks_struct (a b : Str) :
    List.Pairwise SepM (getMatchingBlocks a b) ∧
    (∀ m ∈ getMatchingBlocks a b, m.1 + m.2.2 ≤ a.length ∧ m.2.1 + m.2.2 ≤ b.length) ∧
    (∃ ms, getMatchingBlocks a b = ms ++ [(a.length, b.length, 0)] ∧
      ∀ m ∈ ms, 1 ≤ m.2.2) := by
  have hloop := gmbLoop_inv a b (2 * a.length + 1) [(0, a.length, 0, b.length)] []
    (by simp [queueMeasure])
    (by intro s hs; simp only [List.mem_singleton] at hs; rw [hs]
        exact ⟨le_refl _, le_refl _⟩)
    (by simp)
    (by simp)
  set loopres := gmbLoop a b (2 * a.length + 1) [(0, a.length, 0, b.length)] [] with hlr
  obtain ⟨hP, hK⟩ := hloop
  have hperm : (List.insertionSort matchLe loopres).Perm loopres :=
    List.perm_insertionSort matchLe loopres
  have hP' : List.Pairwise SymSep ((List.insertionSort matchLe loopres).map toBox) :=
    ((hperm.map toBox).pairwise_iff (fun h => symSep_symm h)).mpr hP
  have hK' : ∀ m ∈ List.insertionSort matchLe loopres,
      1 ≤ m.2.2 ∧ m.1 + m.2.2 ≤ a.length ∧ m.2.1 + m.2.2 ≤ b.length :=
    fun m hm => hK m (hperm.mem_iff.mp hm)
  have hsorted : List.Sorted matchLe (List.insertionSort matchLe loopres) :=
    List.sorted_insertionSort matchLe loopres
  have hSepM : List.Pairwise SepM (List.insertionSort matchLe loopres) := by
    have hcomb := (List.pairwise_map.mp hP').and hsorted
    refine hcomb.imp_of_mem ?_
    intro x y hx hy hxy
    exact sepM_of_symSep_matchLe (hK' y hy).1 hxy.2 hxy.1
  have hmerge := mergeAdj_props a.length b.length (List.insertionSort matchLe loopres)
    (0, 0, 0) hSepM (fun m hm => ⟨(hK' m hm).2.1, (hK' m hm).2.2⟩)
    (fun y hy => ⟨by show 0 + 0 ≤ y.1; omega, by show 0 + 0 ≤ y.2.1; omega⟩)
    (by show 0 + 0 ≤ a.length; omega) (by show 0 + 0 ≤ b.length; omega)
  obtain ⟨mP, mProps⟩ := hmerge
  refine ⟨?_, ?_, ?_⟩
  · rw [getMatchingBlocks, ← hlr]
    rw [List.pairwise_append]
    refine ⟨mP, by simp, ?_⟩
    intro x hx y hy
    simp only [List.mem_singleton] at hy
    rw [hy]
    have hp := mProps x hx
    exact ⟨by show x.1 + x.2.2 ≤ a.length; omega, by show x.2.1 + x.2.2 ≤ b.length; omega⟩
  · rw [getMatchingBlocks, ← hlr]
    intro m hm
    rcases List.mem_append.mp hm with hm | hm
    · exact ⟨(mProps m hm).1, (mProps m hm).2.1⟩
    · simp only [List.mem_singleton] at hm
      rw [hm]
      exact ⟨by show a.length + 0 ≤ a.length; omega, by show b.length + 0 ≤ b.length; omega⟩
  · refine ⟨mergeAdj (0, 0, 0) (List.insertionSort matchLe loopres), ?_, ?_⟩
    · rw [getMatchingBlocks, ← hlr]
    · intro m hm
      exact (mProps m hm).2.2.1

end Difflib

namespace Diff

/-- One rebuilding step in the loop of `shared_substring`:
`''.join(shared[i:i+n] for i, j, n in
SequenceMatcher(None, shared, arg).get_matching_blocks())`. -/
def rebuild (shared arg : Str) : Str :=
  ((Difflib.getMatchingBlocks shared arg).map fun m => pySlice shared m.1 (m.1 + m.2.2)).flatten

/-- The `for arg in args` body of one iteration of the `while True` loop of
`shared_substring`. -/
def onePass (args : List Str) (shared : Str) : Str :=
  args.foldl (fun sh arg => rebuild sh arg) shared

/-- The `while True` loop of `shared_substring`, with fuel.  Each pass either
leaves `shared` unchanged (and the loop returns it) or strictly shrinks it,
so `shared.length + 1` fuel always reaches the fixed point. -/
def ssLoop (args : List Str) : Nat → Str → Str
  | 0, shared => shared
  | fuel + 1, shared =>
    if onePass args shared = shared then shared
    else ssLoop args fuel (onePass args shared)

/-- `shared_substring(*args)`: sort the arguments, start from the smallest,
iterate the rebuilding pass to its fixed point. -/
def sharedSubstring (args : List Str) : Str :=
  ssLoop (List.insertionSort (· ≤ ·) args)
    (((List.insertionSort (· ≤ ·) args).headD []).length + 1)
    ((List.insertionSort (· ≤ ·) args).headD [])

/-- Match starts are chained from `base`: each match begins at or after the
end of the previous one. -/
def ChainFrom (base : Nat) : List (Nat × Nat × Nat) → Prop
  | [] => True
  | m :: ms => base ≤ m.1 ∧ ChainFrom (m.1 + m.2.2) ms

theorem chainFrom_of_pairwise :
    ∀ (l : List (Nat × Nat × Nat)) (base : Nat), List.Pairwise Difflib.SepM l →
    (∀ m ∈ l, base ≤ m.1) → ChainFrom base l := by
  intro l
  induction l with
  | nil => intro base _ _; trivial
  | cons m ms ih =>
    intro base hpw hb
    have hpwc := List.pairwise_cons.mp hpw
    exact ⟨hb m (by simp), ih (m.1 + m.2.2) hpwc.2 (fun z hz => (hpwc.1 z hz).1)⟩

theorem flatten_slices_sublist (s : Str) :
    ∀ (ms : List (Nat × Nat × Nat)) (base : Nat), ChainFrom base ms →
    ((ms.map fun m => pySlice s m.1 (m.1 + m.2.2)).flatten).Sublist (s.drop base) := by
  intro ms
  induction ms with
  | nil => intro base _; simp
  | cons m rest ih =>
    intro base hch
    obtain ⟨hb, hch'⟩ := hch
    simp only [List.map_cons, List.flatten_cons]
    have hrest := ih (m.1 + m.2.2) hch'
    have h1 : (s.drop base).drop (m.1 - base) = s.drop m.1 := by
      rw [List.drop_drop]
      congr 1
      omega
    have hsplit1 : s.drop base = (s.drop base).take (m.1 - base) ++ s.drop m.1 := by
      conv_lhs => rw [← List.take_append_drop (m.1 - base) (s.drop base)]
      rw [h1]
    have h2 : (s.drop m.1).drop m.2.2 = s.drop (m.1 + m.2.2) := by
      rw [List.drop_drop]
      try congr 1
      try omega
    have hsplit2 : s.drop m.1 = pySlice s m.1 (m.1 + m.2.2) ++ s.drop (m.1 + m.2.2) := by
      have hk : m.1 + m.2.2 - m.1 = m.2.2 := by omega
      rw [pySlice, hk]
      conv_lhs => rw [← List.take_append_drop m.2.2 (s.drop m.1)]
      rw [h2]
    rw [hsplit1, hsplit2]
    exact List.Sublist.trans ((List.Sublist.refl _).append hrest)
      (List.sublist_append_right _ _)

/-- Each rebuilding step returns a subsequence of the previous `shared`. -/
theorem rebuild_sublist (shared arg : Str) : (rebuild shared arg).Sublist shared := by
  obtain ⟨hpw, _, _⟩ := Difflib.getMatchingBlocks_struct shared arg
  have hch := chainFrom_of_pairwise _ 0 hpw (fun m _ => Nat.zero_le _)
  have hs := flatten_slices_sublist shared _ 0 hch
  rw [List.drop_zero] at hs
  exact hs

theorem rebuild_length_le (shared arg : Str) :
    (rebuild shared arg).length ≤ shared.length :=
  (rebuild_sublist shared arg).length_le

theorem rebuild_eq_of_length (shared arg : Str)
    (h : shared.length ≤ (rebuild shared arg).length) : rebuild shared arg = shared :=
  (rebuild_sublist shared arg).eq_of_length_le h

theorem onePass_length_le (args : List Str) :
    ∀ sh : Str, (onePass args sh).length ≤ sh.length := by
  induction args with
  | nil => intro sh; exact le_refl _
  | cons a rest ih =>
    intro sh
    have h1 := rebuild_length_le sh a
    have h2 := ih (rebuild sh a)
    have hcons : onePass (a :: rest) sh = onePass rest (rebuild sh a) := rfl
    rw [hcons]
    omega

theorem onePass_eq_of_length (args : List Str) :
    ∀ sh : Str, sh.length ≤ (onePass args sh).length → onePass args sh = sh := by
  induction args with
  | nil => intro sh _; rfl
  | cons a rest ih =>
    intro sh hlen
    have hcons : onePass (a :: rest) sh = onePass rest (rebuild sh a) := rfl
    rw [hcons] at hlen ⊢
    have hstep := onePass_length_le rest (rebuild sh a)
    have hr := rebuild_length_le sh a
    have hre : rebuild sh a = sh := rebuild_eq_of_length sh a (by omega)
    rw [hre] at hlen ⊢
    exact ih sh hlen

theorem onePass_fix_each (args : List Str) :
    ∀ sh : Str, onePass args sh = sh → ∀ arg ∈ args, rebuild sh arg = sh := by
  induction args with
  | nil => intro sh _ arg h; simp at h
  | cons a rest ih =>
    intro sh hfix arg harg
    have hcons : onePass (a :: rest) sh = onePass rest (rebuild sh a) := rfl
    rw [hcons] at hfix
    have h1 := onePass_length_le rest (rebuild sh a)
    have h2 := rebuild_length_le sh a
    have h3 := congrArg List.length hfix
    have hre : rebuild sh a = sh := rebuild_eq_of_length sh a (by omega)
    rcases List.mem_cons.mp harg with h | h
    · rw [h]; exact hre
    · rw [hre] at hfix
      exact ih sh hfix arg h

theorem ssLoop_fix (args : List Str) :
    ∀ (fuel : Nat) (sh : Str), sh.length < fuel →
    onePass args (ssLoop args fuel sh) = ssLoop args fuel sh := by
  intro fuel
  induction fuel with
  | zero => intro sh h; exact absurd h (Nat.not_lt_zero _)
  | succ fuel ih =>
    intro sh hlen
    rw [ssLoop]
    split_ifs with hfix
    · exact hfix
    · refine ih (onePass args sh) ?_
      have h1 := onePass_length_le args sh
      have h2 : (onePass args sh).length ≠ sh.length := by
        intro heq
        exact hfix (onePass_eq_of_length args sh (by omega))
      omega

theorem ssLoop_iterate (args : List Str) :
    ∀ (fuel : Nat) (sh : Str), ∃ n, (fun t => onePass args t)^[n] sh = ssLoop args fuel sh := by
  intro fuel
  induction fuel with
  | zero => intro sh; exact ⟨0, rfl⟩
  | succ fuel ih =>
    intro sh
    rw [ssLoop]
    split_ifs with hfix
    · exact ⟨0, rfl⟩
    · obtain ⟨n, hn⟩ := ih (onePass args sh)
      exact ⟨n + 1, by rw [Function.iterate_succ_apply]; exact hn⟩

theorem onePass_sublist (args : List Str) :
    ∀ sh : Str, (onePass args sh).Sublist sh := by
  induction args with
  | nil => intro sh; exact List.Sublist.refl _
  | cons a rest ih =>
    intro sh
    have hcons : onePass (a :: rest) sh = onePass rest (rebuild sh a) := rfl
    rw [hcons]
    exact (ih (rebuild sh a)).trans (rebuild_sublist sh a)

/-- **C8.** For every non-empty sequence of input strings, the fixed-point
loop of `shared_substring` terminates: every rebuilding step returns a
subsequence of the previous `shared`, every full pass returns a subsequence
of non-increasing length, and after finitely many passes starting from the
smallest sorted argument the loop reaches the value `shared_substring`
returns, which a further full pass leaves unchanged. -/
theorem C8_shared_substring_terminates_at_fixed_point (args : List Str) (hne : args ≠ []) :
    (∀ sh arg : Str, (rebuild sh arg).Sublist sh) ∧
    (∀ sh : Str, (onePass (List.insertionSort (· ≤ ·) args) sh).Sublist sh ∧
      (onePass (List.insertionSort (· ≤ ·) args) sh).length ≤ sh.length) ∧
    onePass (List.insertionSort (· ≤ ·) args) (sharedSubstring args) = sharedSubstring args ∧
    ∃ n, (fun sh => onePass (List.insertionSort (· ≤ ·) args) sh)^[n]
      ((List.insertionSort (· ≤ ·) args).headD []) = sharedSubstring args := by
  refine ⟨fun sh arg => rebuild_sublist sh arg,
    fun sh => ⟨onePass_sublist _ sh, onePass_length_le _ sh⟩, ?_, ?_⟩
  · exact ssLoop_fix _ _ _ (Nat.lt_succ_self _)
  · exact ssLoop_iterate _ _ _

/-- Witness for C8 at the concrete inputs `"ab"`, `"ba"`. -/
theorem C8_witness :
    (["ab".data, "ba".data] : List Str) ≠ [] ∧
    onePass (List.insertionSort (· ≤ ·) ["ab".data, "ba".data])
        (sharedSubstring ["ab".data, "ba".data]) =
      sharedSubstring ["ab".data, "ba".data] :=
  ⟨by decide, (C8_shared_substring_terminates_at_fixed_point ["ab".data, "ba".data]
    (by decide)).2.2.1⟩

end Diff

namespace Difflib

/-- The chain length that the matching phase assigns to cell `(i, j)` when
`a = b = s` with `blo = 0`, `bhi = len(s)`: the value stored for column `j`
in the `j2len` table after row `i`. -/
def K (s : Str) : Nat → Nat → Nat
  | 0, j => if j ∈ b2j s (s.getD 0 ' ') then 1 else 0
  | i + 1, j =>
    if j ∈ b2j s (s.getD (i + 1) ' ') then
      (if j = 0 then 0 else K s i (j - 1)) + 1
    else 0

theorem b2j_mem {s : Str} {c : Char} {j : Nat} (h : j ∈ b2j s c) :
    j < s.length ∧ s.getD j ' ' = c ∧ popular s c = false := by
  rw [b2j] at h
  split at h
  · simp at h
  · next hpop =>
    simp only [List.mem_filter, List.mem_range] at h
    refine ⟨h.1, by simpa using h.2, ?_⟩
    simp only [Bool.not_eq_true] at hpop
    exact hpop

theorem b2j_self {s : Str} {i : Nat} (hi : i < s.length)
    (hpop : popular s (s.getD i ' ') = false) : i ∈ b2j s (s.getD i ' ') := by
  rw [b2j, if_neg (by rw [hpop]; simp)]
  simp [List.mem_filter, List.mem_range, hi]

theorem b2j_sorted (s : Str) (c : Char) : List.Sorted (· < ·) (b2j s c) := by
  rw [b2j]
  split
  · simp
  · exact (List.pairwise_lt_range s.length).sublist (List.filter_sublist _)

theorem K_eq_zero_of_not_mem {s : Str} {i j : Nat}
    (h : j ∉ b2j s (s.getD i ' ')) : K s i j = 0 := by
  cases i with
  | zero => rw [K, if_neg h]
  | succ i => rw [K, if_neg h]

theorem K_le_diag (s : Str) :
    ∀ i : Nat, i < s.length →
      (∀ j, i < j → K s i j ≤ K s i i) ∧ (∀ j, j < i → K s i j ≤ K s j j) := by
  intro i
  induction i with
  | zero =>
    intro hi
    refine ⟨?_, ?_⟩
    · intro j hj
      by_cases hm : j ∈ b2j s (s.getD 0 ' ')
      · have hj0 := b2j_mem hm
        have h00 : (0 : Nat) ∈ b2j s (s.getD 0 ' ') := b2j_self hi hj0.2.2
        rw [K, if_pos hm, K, if_pos h00]
      · rw [K, if_neg hm]
        exact Nat.zero_le _
    · intro j hj
      exact absurd hj (Nat.not_lt_zero _)
  | succ i ih =>
    intro hi
    have ih' := ih (by omega)
    refine ⟨?_, ?_⟩
    · intro j hj
      by_cases hm : j ∈ b2j s (s.getD (i + 1) ' ')
      · have hjm := b2j_mem hm
        have hself : (i + 1) ∈ b2j s (s.getD (i + 1) ' ') := b2j_self hi hjm.2.2
        rw [K, if_pos hm, K, if_pos hself]
        have hj0 : j ≠ 0 := by omega
        rw [if_neg hj0, if_neg (by omega : ¬i + 1 = 0)]
        have := ih'.1 (j - 1) (by omega)
        have hrw : i + 1 - 1 = i := by omega
        rw [hrw]
        omega
      · rw [K, if_neg hm]
        exact Nat.zero_le _
    · intro j hj
      by_cases hm : j ∈ b2j s (s.getD (i + 1) ' ')
      · have hjm := b2j_mem hm
        rw [K, if_pos hm]
        cases j with
        | zero =>
          have hchar : s.getD 0 ' ' = s.getD (i + 1) ' ' := hjm.2.1
          have h00 : (0 : Nat) ∈ b2j s (s.getD 0 ' ') := by
            rw [hchar]
            exact hm
          rw [if_pos rfl, K, if_pos h00]
        | succ j' =>
          have hc : s.getD (j' + 1) ' ' = s.getD (i + 1) ' ' := hjm.2.1
          have hself : (j' + 1) ∈ b2j s (s.getD (j' + 1) ' ') := by
            rw [hc]
            exact hm
          rw [if_neg (by omega : ¬j' + 1 = 0)]
          have hKd := ih'.2 j' (by omega)
          rw [K, if_pos hself, if_neg (by omega : ¬j' + 1 = 0)]
          have hrw : j' + 1 - 1 = j' := by omega
          rw [hrw]
          omega
      · rw [K, if_neg hm]
        exact Nat.zero_le _

theorem lookupD_cons (a b : Nat) (t : List (Nat × Nat)) (x : Nat) :
    lookupD ((a, b) :: t) x = if a = x then b else lookupD t x := by
  by_cases h : a = x
  · simp [lookupD, List.find?, h]
  · have hb : ((a : Nat) == x) = false := by simpa using h
    rw [if_neg h]
    simp only [lookupD, List.find?, hb]

theorem chainRow_diag_table (s : Str) (n i : Nat) (prev : List (Nat × Nat))
    (hn : n = s.length) :
    ∀ (js : List Nat) (acc : List (Nat × Nat)) (best : Best),
    (∀ j ∈ js, j ∈ b2j s (s.getD i ' ')) →
    ∀ j', lookupD (chainRow 0 n i js prev acc best).1 j' =
      if j' ∈ js then (if j' = 0 then 0 else lookupD prev (j' - 1)) + 1
      else lookupD acc j' := by
  intro js
  induction js with
  | nil =>
    intro acc best _ j'
    rw [chainRow]
    simp
  | cons j js ih =>
    intro acc best hmem j'
    have hj := b2j_mem (hmem j (by simp))
    rw [chainRow, if_neg (by omega), if_neg (by omega)]
    simp only
    rw [ih ((j, (if j = 0 then 0 else lookupD prev (j - 1)) + 1) :: acc) _
      (fun x hx => hmem x (by simp [hx])) j']
    by_cases hin : j' ∈ js
    · rw [if_pos hin, if_pos (List.mem_cons_of_mem j hin)]
    · rw [if_neg hin, lookupD_cons]
      by_cases hjj : j = j'
      · rw [if_pos hjj, if_pos (List.mem_cons.mpr (Or.inl hjj.symm))]
        rw [hjj]
      · rw [if_neg hjj, if_neg ?_]
        intro hc
        rcases List.mem_cons.mp hc with h | h
        · exact hjj h.symm
        · exact hin h

theorem chainRow_diag_best (s : Str) (n i : Nat) (prev : List (Nat × Nat))
    (hn : n = s.length) (hi : i < n)
    (hprev : ∀ j, lookupD prev j = if i = 0 then 0 else K s (i - 1) j) :
    ∀ (js : List Nat) (acc : List (Nat × Nat)) (best : Best),
    List.Sorted (· < ·) js →
    (∀ j ∈ js, j ∈ b2j s (s.getD i ' ')) →
    best.besti = best.bestj →
    (∀ i', i' < i → K s i' i' ≤ best.bestsize) →
    (i ∈ js ∨ K s i i ≤ best.bestsize) →
    (chainRow 0 n i js prev acc best).2.besti = (chainRow 0 n i js prev acc best).2.bestj ∧
    (∀ i', i' < i → K s i' i' ≤ (chainRow 0 n i js prev acc best).2.bestsize) ∧
    K s i i ≤ (chainRow 0 n i js prev acc best).2.bestsize := by
  intro js
  induction js with
  | nil =>
    intro acc best _ _ hbb hR hdisj
    rw [chainRow]
    rcases hdisj with h | h
    · simp at h
    · exact ⟨hbb, hR, h⟩
  | cons j js ih =>
    intro acc best hsorted hmem hbb hR hdisj
    have hj := b2j_mem (hmem j (by simp))
    rw [chainRow, if_neg (by omega), if_neg (by omega)]
    simp only
    -- the computed k equals K s i j
    have hkK : (if j = 0 then 0 else lookupD prev (j - 1)) + 1 = K s i j := by
      cases i with
      | zero =>
        rw [K, if_pos (hmem j (by simp))]
        cases j with
        | zero => rfl
        | succ j' =>
          rw [if_neg (by omega), hprev, if_pos rfl]
      | succ i₀ =>
        rw [K, if_pos (hmem j (by simp))]
        cases j with
        | zero => rfl
        | succ j' =>
          rw [if_neg (by omega), if_neg (by omega), hprev, if_neg (by omega)]
          rfl
    have hsortc := List.sorted_cons.mp hsorted
    rcases Nat.lt_trichotomy j i with hji | hji | hji
    · -- j < i: dominated by a previously recorded diagonal value
      have hbs : (if j = 0 then 0 else lookupD prev (j - 1)) + 1 ≤ best.bestsize := by
        rw [hkK]
        exact le_trans ((K_le_diag s i (by omega)).2 j hji) (hR j hji)
      have hnup : ¬best.bestsize < (if j = 0 then 0 else lookupD prev (j - 1)) + 1 := by
        omega
      rw [if_neg hnup]
      refine ih _ best hsortc.2 (fun x hx => hmem x (by simp [hx])) hbb hR ?_
      rcases hdisj with h | h
      · rcases List.mem_cons.mp h with h' | h'
        · omega
        · exact Or.inl h'
      · exact Or.inr h
    · -- j = i: the diagonal cell; the best may be updated here
      subst hji
      by_cases hup : best.bestsize < (if j = 0 then 0 else lookupD prev (j - 1)) + 1
      · rw [if_pos hup]
        refine ih _ _ hsortc.2 (fun x hx => hmem x (by simp [hx])) rfl ?_ ?_
        · intro i' hi'
          have h1 := hR i' hi'
          show K s i' i' ≤ (if j = 0 then 0 else lookupD prev (j - 1)) + 1
          omega
        · right
          show K s j j ≤ (if j = 0 then 0 else lookupD prev (j - 1)) + 1
          rw [hkK]
      · rw [if_neg hup]
        refine ih _ best hsortc.2 (fun x hx => hmem x (by simp [hx])) hbb hR ?_
        right
        rw [← hkK]
        omega
    · -- j > i: dominated by the current row diagonal value, already recorded
      have hKii : K s i i ≤ best.bestsize := by
        rcases hdisj with h | h
        · rcases List.mem_cons.mp h with h' | h'
          · omega
          · exact absurd (hsortc.1 i h') (by omega)
        · exact h
      have hbs : (if j = 0 then 0 else lookupD prev (j - 1)) + 1 ≤ best.bestsize := by
        rw [hkK]
        exact le_trans ((K_le_diag s i (by omega)).1 j hji) hKii
      have hnup : ¬best.bestsize < (if j = 0 then 0 else lookupD prev (j - 1)) + 1 := by
        omega
      rw [if_neg hnup]
      exact ih _ best hsortc.2 (fun x hx => hmem x (by simp [hx])) hbb hR (Or.inr hKii)

theorem chainRows_diag (s : Str) (n : Nat) (hn : n = s.length) :
    ∀ (m i₀ : Nat) (prev : List (Nat × Nat)) (best : Best),
    i₀ + m ≤ n →
    (∀ j, lookupD prev j = if i₀ = 0 then 0 else K s (i₀ - 1) j) →
    best.besti = best.bestj →
    (∀ i', i' < i₀ → K s i' i' ≤ best.bestsize) →
    (chainRows s s 0 n (List.range' i₀ m) prev best).besti =
      (chainRows s s 0 n (List.range' i₀ m) prev best).bestj ∧
    (∀ i', i' < i₀ + m →
      K s i' i' ≤ (chainRows s s 0 n (List.range' i₀ m) prev best).bestsize) := by
  intro m
  induction m with
  | zero =>
    intro i₀ prev best hle hprev hbb hR
    rw [List.range']
    rw [chainRows]
    exact ⟨hbb, fun i' h' => hR i' (by omega)⟩
  | succ m ih =>
    intro i₀ prev best hle hprev hbb hR
    rw [List.range'_succ]
    rw [chainRows]
    have hi₀ : i₀ < n := by omega
    have hrowbest := chainRow_diag_best s n i₀ prev hn hi₀ hprev
      (b2j s (s.getD i₀ ' ')) [] best (b2j_sorted s _) (fun j hj => hj) hbb hR ?_
    · have hrowtable := chainRow_diag_table s n i₀ prev hn
        (b2j s (s.getD i₀ ' ')) [] best (fun j hj => hj)
      have hres := ih (i₀ + 1)
        (chainRow 0 n i₀ (b2j s (s.getD i₀ ' ')) prev [] best).1
        (chainRow 0 n i₀ (b2j s (s.getD i₀ ' ')) prev [] best).2
        (by omega)
        (by
          intro j
          rw [hrowtable j, if_neg (by omega : ¬i₀ + 1 = 0)]
          have hsub : i₀ + 1 - 1 = i₀ := by omega
          rw [hsub]
          by_cases hin : j ∈ b2j s (s.getD i₀ ' ')
          · rw [if_pos hin]
            cases i₀ with
            | zero =>
              rw [K, if_pos hin]
              cases j with
              | zero => rfl
              | succ j' => rw [if_neg (by omega), hprev, if_pos rfl]
            | succ t =>
              rw [K, if_pos hin]
              cases j with
              | zero => rfl
              | succ j' =>
                rw [if_neg (by omega), if_neg (by omega), hprev,
                  if_neg (by omega : ¬t + 1 = 0)]
                rfl
          · rw [if_neg hin, K_eq_zero_of_not_mem hin]
            simp [lookupD])
        hrowbest.1
        (by
          intro i' hi'
          rcases Nat.lt_or_ge i' i₀ with h | h
          · exact hrowbest.2.1 i' h
          · have : i' = i₀ := by omega
            rw [this]
            exact hrowbest.2.2)
      refine ⟨hres.1, fun i' h' => hres.2 i' (by omega)⟩
    · by_cases hpop : popular s (s.getD i₀ ' ') = true
      · right
        have hnm : i₀ ∉ b2j s (s.getD i₀ ' ') := by
          rw [b2j, if_pos hpop]
          simp
        rw [K_eq_zero_of_not_mem hnm]
        exact Nat.zero_le _
      · left
        exact b2j_self (by omega) (by simpa using hpop)

theorem extendLeft_diag (s : Str) :
    ∀ (bi bs : Nat), extendLeft s s 0 0 bi bi bs = (0, 0, bs + bi) := by
  intro bi
  induction bi with
  | zero => intro bs; rfl
  | succ bi ih =>
    intro bs
    rw [extendLeft, if_pos ⟨by omega, by omega, by rw [Nat.add_sub_cancel]⟩,
      Nat.add_sub_cancel, ih (bs + 1)]
    have harith : bs + 1 + bi = bs + (bi + 1) := by omega
    rw [harith]

theorem extendRightF_diag (s : Str) (n : Nat) :
    ∀ (fuel v : Nat), fuel = n - v → v ≤ n → extendRightF s s n n 0 0 fuel v = n := by
  intro fuel
  induction fuel with
  | zero =>
    intro v hf hv
    have hvn : v = n := by omega
    rw [hvn]
    rfl
  | succ fuel ih =>
    intro v hf hv
    rw [extendRightF, if_pos ⟨by omega, by omega, rfl⟩]
    exact ih (v + 1) (by omega) (by omega)

theorem findLongestMatch_diag (s : Str) (n : Nat) (hn : n = s.length) :
    findLongestMatch s s 0 n 0 n = (0, 0, n) := by
  have hrows := chainRows_diag s n hn n 0 [] ⟨0, 0, 0⟩ (by omega)
    (by intro j; simp [lookupD]) rfl (by intro i' h; omega)
  have hinv := bestInv_chainRows s s 0 n 0 n
  rw [findLongestMatch]
  have hsub : n - 0 = n := by omega
  rw [hsub] at hinv ⊢
  set best := chainRows s s 0 n (List.range' 0 n) [] ⟨0, 0, 0⟩ with hbdef
  have hbound : best.besti + best.bestsize ≤ n := by
    rcases hinv with ⟨h1, _, h3⟩ | ⟨_, _, _, h4, _⟩
    · rw [h1, h3]
      omega
    · exact h4
  rw [hrows.1, extendLeft_diag s best.bestj best.bestsize]
  simp only
  rw [extendRight, extendRightF_diag s n _ _ rfl (by rw [← hrows.1]; omega)]

theorem getMatchingBlocks_self (s : Str) (hpos : 1 ≤ s.length) :
    getMatchingBlocks s s = [(0, 0, s.length), (s.length, s.length, 0)] := by
  have h1 : gmbLoop s s (2 * s.length + 1) [(0, s.length, 0, s.length)] []
      = [(0, 0, s.length)] := by
    rw [gmbLoop, findLongestMatch_diag s s.length rfl]
    simp only
    rw [if_neg (show ¬s.length = 0 by omega)]
    rw [if_neg (show ¬(0 + s.length < s.length ∧ 0 + s.length < s.length) by omega)]
    rw [if_neg (show ¬((0 : Nat) < 0 ∧ (0 : Nat) < 0) by omega)]
    rw [List.nil_append, List.nil_append, List.nil_append]
    rw [gmbLoop]
  rw [getMatchingBlocks, h1]
  have h2 : List.insertionSort matchLe [(0, 0, s.length)] = [(0, 0, s.length)] := rfl
  rw [h2, mergeAdj, if_pos (show 0 + 0 = 0 ∧ 0 + 0 = 0 from ⟨rfl, rfl⟩),
    mergeAdj, if_pos (show 0 + s.length ≠ 0 by omega)]
  rw [List.singleton_append]
  have h3 : 0 + s.length = s.length := by omega
  rw [h3]

end Difflib

namespace Diff

/-- `sorted(set(...))` over naturals: deduplicate, then sort ascending. -/
def sortedDedup (l : List Nat) : List Nat := List.insertionSort (· ≤ ·) l.dedup

/-- `align(*args)` (tools/diff/__init__.py).  The comprehensions translate
one-to-one; `j + start - i` and `end - start` only arise with
`i ≤ start` (the resplit guard) and `start ≤ end` (starts are sorted
ascending), so natural subtraction agrees with Python. -/
def align (args : List Str) : List (List Str) :=
  let shared := sharedSubstring args
  let blockLists := args.map fun arg => Difflib.getMatchingBlocks shared arg
  let starts := sortedDedup ((blockLists.flatten).map fun m => m.1)
  let ends := starts.tail ++ [shared.length]
  let matches2 := blockLists.map fun m =>
    m.flatMap fun t => (starts.zip ends).filterMap fun p =>
      if t.1 ≤ p.1 ∧ p.1 < t.1 + t.2.2 then some (t.2.1 + p.1 - t.1, p.2 - p.1) else none
  let startsL := matches2.map fun m => 0 :: m.flatMap fun q => [q.1, q.1 + q.2]
  let endsL := (startsL.zip args).map fun p => p.1.tail ++ [p.2.length]
  let blocks := ((startsL.zip endsL).zip args).map fun p =>
    (p.1.1.zip p.1.2).map fun q => pySlice p.2 q.1 q.2
  (pyZip blocks).filter fun row => row.any fun b => !b.isEmpty

theorem rebuild_self (s : Str) (hpos : 1 ≤ s.length) : rebuild s s = s := by
  rw [rebuild, Difflib.getMatchingBlocks_self s hpos]
  simp [pySlice]

theorem sharedSubstring_triple (s : Str) (hpos : 1 ≤ s.length) :
    sharedSubstring [s, s, s] = s := by
  have hsort : List.insertionSort (· ≤ ·) [s, s, s] = [s, s, s] := by
    simp [List.insertionSort, List.orderedInsert]
  have honep : onePass [s, s, s] s = s := by
    have h1 : onePass [s, s, s] s = rebuild (rebuild (rebuild s s) s) s := by
      simp only [onePass, List.foldl_cons, List.foldl_nil]
    rw [h1, rebuild_self s hpos, rebuild_self s hpos, rebuild_self s hpos]
  rw [sharedSubstring, hsort]
  have hhead : ([s, s, s] : List Str).headD [] = s := rfl
  rw [hhead, ssLoop, if_pos honep]

theorem sortedDedup_sorted (l : List Nat) :
    List.Sorted (· ≤ ·) (sortedDedup l) := List.sorted_insertionSort _ _

theorem sortedDedup_nodup (l : List Nat) : (sortedDedup l).Nodup :=
  (List.perm_insertionSort _ _).nodup_iff.mpr (List.nodup_dedup l)

theorem sortedDedup_mem (l : List Nat) (x : Nat) : x ∈ sortedDedup l ↔ x ∈ l := by
  rw [sortedDedup, (List.perm_insertionSort _ _).mem_iff, List.mem_dedup]

theorem sortedDedup_eq_of {l out : List Nat} (hs : List.Sorted (· < ·) out)
    (hm : ∀ x, x ∈ out ↔ x ∈ l) : sortedDedup l = out := by
  have hnod : out.Nodup := List.Pairwise.imp (fun h => Nat.ne_of_lt h) hs
  have hperm : (sortedDedup l).Perm out :=
    (List.perm_ext_iff_of_nodup (sortedDedup_nodup l) hnod).mpr
      (fun a => by rw [sortedDedup_mem]; exact (hm a).symm)
  exact List.eq_of_perm_of_sorted hperm (sortedDedup_sorted l) hs.le_of_lt

theorem sortedDedup_six (n : Nat) (hpos : 1 ≤ n) :
    sortedDedup [0, n, 0, n, 0, n] = [0, n] := by
  apply sortedDedup_eq_of
  · simp only [List.sorted_cons, List.mem_singleton, List.sorted_singleton, List.mem_cons,
      List.not_mem_nil]
    constructor
    · intro b hb
      simp at hb
      omega
    · simp
  · intro x
    simp only [List.mem_cons, List.not_mem_nil]
    tauto

theorem align_triple (s : Str) (hpos : 1 ≤ s.length) : align [s, s, s] = [[s, s, s]] := by
  have hp0 : 0 < s.length := hpos
  have hne : ¬s.length = 0 := by omega
  have hemp : s.isEmpty = false := by
    cases s with
    | nil => simp at hpos
    | cons a t => rfl
  have hstarts : sortedDedup [0, s.length, 0, s.length, 0, s.length] = [0, s.length] :=
    sortedDedup_six s.length hpos
  have htake : s.take s.length = s := List.take_length s
  have hdrop : s.drop s.length = [] := List.drop_length s
  rw [align, sharedSubstring_triple s hpos]
  simp only [Difflib.getMatchingBlocks_self s hpos, List.map_cons, List.map_nil,
    List.flatten_cons, List.flatten_nil, List.append_nil, List.nil_append, List.cons_append,
    hstarts]
  simp [pySlice, hp0, hne, htake, hdrop, hemp]
  have hz : pyZip [[([] : Str), s, []], [[], s, []], [[], s, []]] =
      [[[], [], []], [s, s, s], [[], [], []]] := rfl
  rw [hz]
  simp [List.filter, hemp]

/-- Counterexample to **C7** as stated ("for every string s"): for the empty
string the single all-empty block row is removed by `filter(any, ...)`, so
`align('', '', '')` returns `[]`, not `[('', '', '')]`. -/
theorem C7_counterexample :
    align [([] : Str), [], []] = [] ∧
    align [([] : Str), [], []] ≠ [[[], [], []]] := by
  refine ⟨by decide, by decide⟩

/-- **C7** (amended to non-empty strings): for every non-empty string `s`,
`align(s, s, s)` returns exactly one block, the triple `(s, s, s)`. -/
theorem C7_align_identical_returns_single_block (s : Str) (hpos : s ≠ []) :
    align [s, s, s] = [[s, s, s]] :=
  align_triple s (by
    cases s with
    | nil => exact absurd rfl hpos
    | cons a t => simp)

/-- Witness for the amended C7 at the concrete input `"ab"`. -/
theorem C7_witness :
    ("ab".data : Str) ≠ [] ∧
    align ["ab".data, "ab".data, "ab".data] = [["ab".data, "ab".data, "ab".data]] :=
  ⟨by decide, C7_align_identical_returns_single_block "ab".data (by decide)⟩

/-- `ms` tiles `[c, L)` exactly in the first coordinate, with the second
coordinate chained from `d`, bounded by `lb`, and all sizes positive. -/
def TilesExact (L lb : Nat) : Nat → Nat → List (Nat × Nat × Nat) → Prop
  | c, _, [] => c = L
  | c, d, m :: ms => m.1 = c ∧ d ≤ m.2.1 ∧ m.2.1 + m.2.2 ≤ lb ∧ 1 ≤ m.2.2 ∧
      TilesExact L lb (c + m.2.2) (m.2.1 + m.2.2) ms

theorem sum_sizes_le (L : Nat) :
    ∀ (ms : List (Nat × Nat × Nat)) (c : Nat), List.Pairwise Difflib.SepM ms →
    (∀ m ∈ ms, c ≤ m.1 ∧ m.1 + m.2.2 ≤ L) →
    (ms.map fun m => m.2.2).sum ≤ L - c := by
  intro ms
  induction ms with
  | nil => intro c _ _; simp
  | cons m rest ih =>
    intro c hpw hb
    have hpwc := List.pairwise_cons.mp hpw
    have hm := hb m (by simp)
    have hrest := ih (m.1 + m.2.2) hpwc.2 (fun z hz =>
      ⟨(hpwc.1 z hz).1, (hb z (by simp [hz])).2⟩)
    simp only [List.map_cons, List.sum_cons]
    omega

theorem tiles_of_sum (L lb : Nat) :
    ∀ (ms : List (Nat × Nat × Nat)) (c d : Nat),
    List.Pairwise Difflib.SepM ms →
    (∀ m ∈ ms, m.1 + m.2.2 ≤ L ∧ m.2.1 + m.2.2 ≤ lb ∧ 1 ≤ m.2.2) →
    (∀ m ∈ ms, c ≤ m.1 ∧ d ≤ m.2.1) →
    c ≤ L →
    (ms.map fun m => m.2.2).sum = L - c →
    TilesExact L lb c d ms := by
  intro ms
  induction ms with
  | nil =>
    intro c d _ _ _ hcL hsum
    simp only [List.map_nil, List.sum_nil] at hsum
    show c = L
    omega
  | cons m rest ih =>
    intro c d hpw hb hh hcL hsum
    have hpwc := List.pairwise_cons.mp hpw
    have hmb := hb m (by simp)
    have hmh := hh m (by simp)
    simp only [List.map_cons, List.sum_cons] at hsum
    have hrle := sum_sizes_le L rest (m.1 + m.2.2) hpwc.2 (fun z hz =>
      ⟨(hpwc.1 z hz).1, (hb z (by simp [hz])).1⟩)
    have hstart : m.1 = c := by omega
    refine ⟨hstart, hmh.2, hmb.2.1, hmb.2.2, ?_⟩
    refine ih (c + m.2.2) (m.2.1 + m.2.2) hpwc.2
      (fun z hz => hb z (by simp [hz]))
      (fun z hz => ⟨by have := (hpwc.1 z hz).1; omega, (hpwc.1 z hz).2⟩)
      (by omega) (by omega)

theorem pySlice_length (s : Str) (i k : Nat) (h : i + k ≤ s.length) :
    (pySlice s i (i + k)).length = k := by
  rw [pySlice]
  simp only [List.length_take, List.length_drop]
  omega

theorem gmb_tiles_of_fix (shared arg : Str) (hfix : rebuild shared arg = shared) :
    ∃ ms, Difflib.getMatchingBlocks shared arg = ms ++ [(shared.length, arg.length, 0)] ∧
      TilesExact shared.length arg.length 0 0 ms := by
  obtain ⟨hpw, hbounds, ms, heq, hk⟩ := Difflib.getMatchingBlocks_struct shared arg
  have hpwms : List.Pairwise Difflib.SepM ms := by
    rw [heq] at hpw
    exact hpw.sublist (List.sublist_append_left ms _)
  have hbms : ∀ m ∈ ms, m.1 + m.2.2 ≤ shared.length ∧ m.2.1 + m.2.2 ≤ arg.length :=
    fun m hm => hbounds m (by rw [heq]; exact List.mem_append_left _ hm)
  refine ⟨ms, heq, ?_⟩
  refine tiles_of_sum shared.length arg.length ms 0 0 hpwms
    (fun m hm => ⟨(hbms m hm).1, (hbms m hm).2, hk m hm⟩)
    (fun m _ => ⟨Nat.zero_le _, Nat.zero_le _⟩) (Nat.zero_le _) ?_
  have hlen := congrArg List.length hfix
  rw [rebuild, heq] at hlen
  simp only [List.map_append, List.map_cons, List.map_nil, List.flatten_append,
    List.flatten_cons, List.flatten_nil, List.length_append, List.length_flatten,
    List.length_nil] at hlen
  have hsent : (pySlice shared shared.length (shared.length + 0)).length = 0 := by
    rw [pySlice]
    simp
  have hmapeq : (ms.map fun m => (pySlice shared m.1 (m.1 + m.2.2)).length)
      = ms.map fun m => m.2.2 := by
    apply List.map_congr_left
    intro m hm
    exact pySlice_length shared m.1 m.2.2 (hbms m hm).1
  rw [List.map_map] at hlen
  have hcomp : ((fun l => List.length l) ∘ fun m => pySlice shared m.1 (m.1 + m.2.2))
      = fun m : Nat × Nat × Nat => (pySlice shared m.1 (m.1 + m.2.2)).length := rfl
  rw [hcomp, hmapeq] at hlen
  omega

/-- The per-pair selector of the resplitting comprehension of `align`, for a
match starting at `c` in `shared`, at `j` in the argument, of size `k`. -/
def tileSel (c k j : Nat) (p : Nat × Nat) : Option (Nat × Nat) :=
  if c ≤ p.1 ∧ p.1 < c + k then some (j + p.1 - c, p.2 - p.1) else none

theorem tileSel_eval (c k j st en : Nat) :
    tileSel c k j (st, en) =
      if c ≤ st ∧ st < c + k then some (j + st - c, en - st) else none := rfl

/-- `out` covers `[y, e)` contiguously. -/
def SegChainFrom : Nat → List (Nat × Nat) → Nat → Prop
  | y, [], e => y = e
  | y, (p, l) :: rest, e => p = y ∧ SegChainFrom (p + l) rest e

/-- Monotone block chain bounded by `len`. -/
def PChain (len : Nat) : Nat → List (Nat × Nat) → Prop
  | y, [] => y ≤ len
  | y, (p, l) :: rest => y ≤ p ∧ PChain len (p + l) rest

theorem pchain_weaken (len : Nat) :
    ∀ (l : List (Nat × Nat)) (d e : Nat), d ≤ e → PChain len e l → PChain len d l := by
  intro l
  cases l with
  | nil => intro d e hde h; exact le_trans hde h
  | cons q rest =>
    rcases q with ⟨p, s⟩
    intro d e hde h
    exact ⟨le_trans hde h.1, h.2⟩

theorem segChain_pchain_glue (len : Nat) :
    ∀ (out : List (Nat × Nat)) (y e : Nat) (rest : List (Nat × Nat)),
    SegChainFrom y out e → PChain len e rest → ∀ d, d ≤ y →
    PChain len d (out ++ rest) := by
  intro out
  induction out with
  | nil =>
    intro y e rest hseg hrest d hd
    have hye : y = e := hseg
    rw [List.nil_append]
    exact pchain_weaken len rest d e (by omega) hrest
  | cons q out' ih =>
    rcases q with ⟨p, l⟩
    intro y e rest hseg hrest d hd
    obtain ⟨hp, hseg'⟩ := hseg
    exact ⟨by omega, ih (p + l) e rest hseg' hrest (p + l) (le_refl _)⟩

theorem tile_run (L c k j : Nat) :
    ∀ (S : List Nat) (st : Nat),
    List.Sorted (· < ·) (st :: S) →
    c ≤ st → st < c + k → (c + k) ∈ S →
    SegChainFrom (j + st - c) (((st :: S).zip (S ++ [L])).filterMap (tileSel c k j)) (j + k) ∧
    (((st :: S).zip (S ++ [L])).filterMap (tileSel c k j)).length
      = (st :: S).countP fun x => decide (c ≤ x ∧ x < c + k) := by
  intro S
  induction S with
  | nil =>
    intro st _ _ _ hmem
    simp at hmem
  | cons s' S' ih =>
    intro st hsort hcst hstk hmem
    have hsortc := List.sorted_cons.mp hsort
    have hsts' : st < s' := hsortc.1 s' (by simp)
    have hzip : ((st :: s' :: S').zip ((s' :: S') ++ [L])) =
        (st, s') :: ((s' :: S').zip (S' ++ [L])) := rfl
    rw [hzip, List.filterMap_cons, tileSel_eval, if_pos ⟨hcst, hstk⟩]
    by_cases hs'k : s' < c + k
    · have hmem' : (c + k) ∈ S' := by
        rcases List.mem_cons.mp hmem with h | h
        · omega
        · exact h
      have hres := ih s' hsortc.2 (by omega) hs'k hmem'
      constructor
      · refine ⟨rfl, ?_⟩
        have harith : j + st - c + (s' - st) = j + s' - c := by omega
        rw [harith]
        exact hres.1
      · have hcp : (st :: s' :: S').countP (fun x => decide (c ≤ x ∧ x < c + k))
            = (s' :: S').countP (fun x => decide (c ≤ x ∧ x < c + k)) + 1 := by
          rw [List.countP_cons, if_pos (by simp only [decide_eq_true_eq]; exact ⟨hcst, hstk⟩)]
        rw [List.length_cons, hres.2, hcp]
    · have hs'eq : s' = c + k := by
        rcases List.mem_cons.mp hmem with h | h
        · omega
        · have := List.rel_of_sorted_cons hsortc.2 _ h
          omega
      have hnil : ((s' :: S').zip (S' ++ [L])).filterMap (tileSel c k j) = [] := by
        rw [List.filterMap_eq_nil_iff]
        intro p hp
        have hp1 := (List.of_mem_zip hp).1
        rcases p with ⟨x, y⟩
        rw [tileSel_eval, if_neg]
        intro hcond
        rcases List.mem_cons.mp hp1 with h | h
        · omega
        · have := List.rel_of_sorted_cons hsortc.2 _ h
          omega
      rw [hnil]
      constructor
      · refine ⟨rfl, ?_⟩
        show j + st - c + (s' - st) = j + k
        omega
      · have hz : (s' :: S').countP (fun x => decide (c ≤ x ∧ x < c + k)) = 0 := by
          rw [List.countP_eq_zero]
          intro x hx
          simp only [decide_eq_true_eq]
          intro hcond
          rcases List.mem_cons.mp hx with h | h
          · omega
          · have := List.rel_of_sorted_cons hsortc.2 _ h
            omega
        have hcp : (st :: s' :: S').countP (fun x => decide (c ≤ x ∧ x < c + k))
            = (s' :: S').countP (fun x => decide (c ≤ x ∧ x < c + k)) + 1 := by
          rw [List.countP_cons, if_pos (by simp only [decide_eq_true_eq]; exact ⟨hcst, hstk⟩)]
        rw [hcp, hz]
        rfl

theorem tile_select (L c k j : Nat) (hk : 1 ≤ k) :
    ∀ (S : List Nat),
    List.Sorted (· < ·) S → c ∈ S → (c + k) ∈ S →
    SegChainFrom j ((S.zip (S.tail ++ [L])).filterMap (tileSel c k j)) (j + k) ∧
    ((S.zip (S.tail ++ [L])).filterMap (tileSel c k j)).length
      = S.countP fun x => decide (c ≤ x ∧ x < c + k) := by
  intro S
  induction S with
  | nil =>
    intro _ hc _
    simp at hc
  | cons s S' ih =>
    intro hsort hc hck
    have hsortc := List.sorted_cons.mp hsort
    rcases Nat.lt_trichotomy s c with hsc | hsc | hsc
    · -- skip this start: it lies before the tile
      have hcS' : c ∈ S' := by
        rcases List.mem_cons.mp hc with h | h
        · omega
        · exact h
      have hckS' : (c + k) ∈ S' := by
        rcases List.mem_cons.mp hck with h | h
        · omega
        · exact h
      cases S' with
      | nil => simp at hcS'
      | cons s' S'' =>
        have hzip : ((s :: s' :: S'').zip ((s :: s' :: S'').tail ++ [L])) =
            (s, s') :: ((s' :: S'').zip ((s' :: S'').tail ++ [L])) := rfl
        rw [hzip, List.filterMap_cons, tileSel_eval, if_neg (by omega)]
        have hres := ih hsortc.2 hcS' hckS'
        refine ⟨hres.1, ?_⟩
        have hcp : (s :: s' :: S'').countP (fun x => decide (c ≤ x ∧ x < c + k))
            = (s' :: S'').countP (fun x => decide (c ≤ x ∧ x < c + k)) := by
          rw [List.countP_cons, if_neg (by simp only [decide_eq_true_eq]; omega)]
          omega
        rw [hcp]
        exact hres.2
    · -- the run starts here
      subst hsc
      have hckS' : (s + k) ∈ S' := by
        rcases List.mem_cons.mp hck with h | h
        · omega
        · exact h
      have hres := tile_run L s k j S' s hsort (le_refl s) (by omega) hckS'
      have harith : j + s - s = j := by omega
      rw [harith] at hres
      exact hres
    · -- c before every remaining start: impossible since c ∈ S
      exfalso
      rcases List.mem_cons.mp hc with h | h
      · omega
      · have := hsortc.1 c h
        omega

theorem tilesExact_le (L lb : Nat) :
    ∀ (ms : List (Nat × Nat × Nat)) (c d : Nat), TilesExact L lb c d ms → c ≤ L := by
  intro ms
  induction ms with
  | nil =>
    intro c d h
    have hc : c = L := h
    omega
  | cons m rest ih =>
    intro c d h
    obtain ⟨_, _, _, _, hrest⟩ := h
    have := ih (c + m.2.2) (m.2.1 + m.2.2) hrest
    omega

theorem countP_split (c k L : Nat) (hkL : c + k ≤ L) :
    ∀ S : List Nat,
    S.countP (fun x => decide (c ≤ x ∧ x < c + k)) +
      S.countP (fun x => decide (c + k ≤ x ∧ x < L)) =
      S.countP (fun x => decide (c ≤ x ∧ x < L)) := by
  intro S
  induction S with
  | nil => simp
  | cons a T ih =>
    simp only [List.countP_cons]
    simp only [decide_eq_true_eq]
    split_ifs <;> omega

theorem resplit_glue (S : List Nat) (L la : Nat)
    (hS : List.Sorted (· < ·) S) (hLmem : L ∈ S) :
    ∀ (ms : List (Nat × Nat × Nat)) (c d : Nat),
    TilesExact L la c d ms →
    (∀ m ∈ ms, m.1 ∈ S) →
    d ≤ la →
    PChain la d (ms.flatMap fun t =>
      (S.zip (S.tail ++ [L])).filterMap (tileSel t.1 t.2.2 t.2.1)) ∧
    (ms.flatMap fun t =>
      (S.zip (S.tail ++ [L])).filterMap (tileSel t.1 t.2.2 t.2.1)).length
      = S.countP fun x => decide (c ≤ x ∧ x < L) := by
  intro ms
  induction ms with
  | nil =>
    intro c d htiles hmem hdla
    have hcL : c = L := htiles
    constructor
    · exact hdla
    · rw [List.flatMap_nil, List.length_nil]
      symm
      rw [List.countP_eq_zero]
      intro x _
      simp only [decide_eq_true_eq]
      omega
  | cons m rest ih =>
    intro c d htiles hmem hdla
    rcases m with ⟨c', j, k⟩
    obtain ⟨hc', hdj, hjkla, hk, hrest⟩ := htiles
    subst hc'
    have hdj' : d ≤ j := hdj
    have hjkla' : j + k ≤ la := hjkla
    have hk' : 1 ≤ k := hk
    have hcmem : c' ∈ S := hmem (c', j, k) (by simp)
    have hckmem : (c' + k) ∈ S := by
      cases rest with
      | nil =>
        have hend : c' + k = L := hrest
        rw [hend]
        exact hLmem
      | cons m' rest' =>
        have hm' : m'.1 = c' + k := hrest.1
        rw [← hm']
        exact hmem m' (by simp)
    have hsel := tile_select L c' k j hk' S hS hcmem hckmem
    have hres := ih (c' + k) (j + k) hrest (fun z hz => hmem z (by simp [hz]))
      (by omega)
    rw [List.flatMap_cons]
    constructor
    · exact segChain_pchain_glue la _ j (j + k) _ hsel.1 hres.1 d hdj'
    · rw [List.length_append, hsel.2, hres.2]
      exact countP_split c' k L (tilesExact_le L la rest (c' + k) (j + k) hrest) S

/-- Consecutive slices of `arg` between the cut points `c :: qs`. -/
def consecSlices (arg : Str) : Nat → List Nat → List Str
  | _, [] => []
  | c, q :: qs => pySlice arg c q :: consecSlices arg q qs

/-- The cut points are non-decreasing starting from `c`. -/
def NonDec : Nat → List Nat → Prop
  | _, [] => True
  | c, q :: qs => c ≤ q ∧ NonDec q qs

theorem pySlice_append (arg : Str) (c q e : Nat) (hcq : c ≤ q) (hqe : q ≤ e) :
    pySlice arg c q ++ pySlice arg q e = pySlice arg c e := by
  rw [pySlice, pySlice, pySlice]
  have h1 : (arg.drop c).drop (q - c) = arg.drop q := by
    rw [List.drop_drop]
    congr 1
    omega
  rw [← h1, ← List.take_add]
  congr 1
  omega

theorem nonDec_le_last : ∀ (qs : List Nat) (c : Nat), NonDec c qs → c ≤ qs.getLastD c := by
  intro qs
  induction qs with
  | nil => intro c _; exact le_refl _
  | cons q qs ih =>
    intro c h
    obtain ⟨hcq, h'⟩ := h
    rw [List.getLastD_cons]
    exact le_trans hcq (ih q h')

theorem flatten_consecSlices (arg : Str) :
    ∀ (qs : List Nat) (c : Nat), NonDec c qs →
    (consecSlices arg c qs).flatten = pySlice arg c (qs.getLastD c) := by
  intro qs
  induction qs with
  | nil =>
    intro c _
    show ([] : List Str).flatten = pySlice arg c c
    rw [pySlice]
    simp
  | cons q qs ih =>
    intro c h
    obtain ⟨hcq, h'⟩ := h
    show (pySlice arg c q :: consecSlices arg q qs).flatten = pySlice arg c ((q :: qs).getLastD c)
    rw [List.flatten_cons, ih q h', List.getLastD_cons]
    exact pySlice_append arg c q (qs.getLastD q) hcq (nonDec_le_last qs q h')

theorem getLastD_snoc : ∀ (xs : List Nat) (a d : Nat), (xs ++ [a]).getLastD d = a := by
  intro xs
  induction xs with
  | nil => intro a d; rfl
  | cons x xs ih =>
    intro a d
    rw [List.cons_append, List.getLastD_cons]
    exact ih a x

/-- The per-argument row of blocks built by `align` from the resplit matches
`m2` of one argument. -/
def rowOf (arg : Str) (m2 : List (Nat × Nat)) : List Str :=
  ((0 :: m2.flatMap fun q => [q.1, q.1 + q.2]).zip
      ((m2.flatMap fun q => [q.1, q.1 + q.2]) ++ [arg.length])).map
    fun q => pySlice arg q.1 q.2

theorem zip_slices_eq_consec (arg : Str) :
    ∀ (t : List Nat) (c x : Nat),
    (((c :: t).zip (t ++ [x])).map fun q => pySlice arg q.1 q.2) =
      consecSlices arg c (t ++ [x]) := by
  intro t
  induction t with
  | nil => intro c x; rfl
  | cons q t' ih =>
    intro c x
    show ((c, q) :: ((q :: t').zip (t' ++ [x]))).map (fun q => pySlice arg q.1 q.2) =
      pySlice arg c q :: consecSlices arg q (t' ++ [x])
    rw [List.map_cons]
    congr 1
    exact ih q x

theorem nonDec_flat (la : Nat) :
    ∀ (m2 : List (Nat × Nat)) (y : Nat), PChain la y m2 →
    NonDec y ((m2.flatMap fun q => [q.1, q.1 + q.2]) ++ [la]) := by
  intro m2
  induction m2 with
  | nil =>
    intro y h
    exact ⟨h, trivial⟩
  | cons q rest ih =>
    rcases q with ⟨p, l⟩
    intro y h
    obtain ⟨hyp, h'⟩ := h
    exact ⟨hyp, by omega, ih (p + l) h'⟩

theorem rowOf_flatten (arg : Str) (m2 : List (Nat × Nat))
    (hch : PChain arg.length 0 m2) : (rowOf arg m2).flatten = arg := by
  rw [rowOf, zip_slices_eq_consec, flatten_consecSlices arg _ 0
    (nonDec_flat arg.length m2 0 hch), getLastD_snoc]
  rw [pySlice]
  simp

theorem flat_pairs_length :
    ∀ m2 : List (Nat × Nat), (m2.flatMap fun q => [q.1, q.1 + q.2]).length = 2 * m2.length := by
  intro m2
  induction m2 with
  | nil => rfl
  | cons q rest ih =>
    rw [List.flatMap_cons, List.length_append, ih]
    simp only [List.length_cons, List.length_nil, List.length_singleton]
    omega

theorem rowOf_length (arg : Str) (m2 : List (Nat × Nat)) :
    (rowOf arg m2).length = 2 * m2.length + 1 := by
  rw [rowOf, List.length_map, List.length_zip, List.length_cons, List.length_append,
    flat_pairs_length]
  simp

theorem zip_self_map {α β γ : Type} (u : α → β) (f : β × α → γ) :
    ∀ l : List α, ((l.map u).zip l).map f = l.map fun a => f (u a, a) := by
  intro l
  induction l with
  | nil => rfl
  | cons a t ih =>
    simp only [List.map_cons, List.zip_cons_cons]
    rw [ih]

theorem zip_zip_self_map {α β γ δ : Type} (u : α → β) (v : α → γ) (f : (β × γ) × α → δ) :
    ∀ l : List α,
    (((l.map u).zip (l.map v)).zip l).map f = l.map fun a => f ((u a, v a), a) := by
  intro l
  induction l with
  | nil => rfl
  | cons a t ih =>
    simp only [List.map_cons, List.zip_cons_cons]
    rw [ih]

/-- The global list of match starts of `align`. -/
def alignStarts (args : List Str) : List Nat :=
  sortedDedup (((args.map fun arg =>
    Difflib.getMatchingBlocks (sharedSubstring args) arg).flatten).map fun m => m.1)

/-- The resplit matches of one argument in `align`. -/
def argM2 (args : List Str) (arg : Str) : List (Nat × Nat) :=
  (Difflib.getMatchingBlocks (sharedSubstring args) arg).flatMap fun t =>
    ((alignStarts args).zip
      ((alignStarts args).tail ++ [(sharedSubstring args).length])).filterMap
      (tileSel t.1 t.2.2 t.2.1)

/-- The row of blocks that `align` cuts one argument into. -/
def argRow (args : List Str) (arg : Str) : List Str := rowOf arg (argM2 args arg)

set_option maxHeartbeats 2000000 in
theorem align_eq (args : List Str) :
    align args = (pyZip (args.map fun arg => argRow args arg)).filter
      fun row => row.any fun b => !b.isEmpty := by
  simp only [align, List.map_map]
  rw [zip_self_map, zip_zip_self_map]
  rfl

theorem sortedDedup_sorted_lt (l : List Nat) : List.Sorted (· < ·) (sortedDedup l) :=
  ((sortedDedup_sorted l).and (sortedDedup_nodup l)).imp fun h => lt_of_le_of_ne h.1 h.2

theorem alignStarts_facts (args : List Str) (hne : args ≠ []) :
    List.Sorted (· < ·) (alignStarts args) ∧
    (sharedSubstring args).length ∈ alignStarts args ∧
    (∀ x ∈ alignStarts args, x ≤ (sharedSubstring args).length) ∧
    (∀ arg ∈ args, ∀ m ∈ Difflib.getMatchingBlocks (sharedSubstring args) arg,
      m.1 ∈ alignStarts args) := by
  refine ⟨sortedDedup_sorted_lt _, ?_, ?_, ?_⟩
  · cases args with
    | nil => exact absurd rfl hne
    | cons a rest =>
      rw [alignStarts, sortedDedup_mem]
      obtain ⟨_, _, ms, heq, _⟩ :=
        Difflib.getMatchingBlocks_struct (sharedSubstring (a :: rest)) a
      refine List.mem_map.mpr ⟨(((sharedSubstring (a :: rest))).length, a.length, 0), ?_, rfl⟩
      refine List.mem_flatten.mpr
        ⟨Difflib.getMatchingBlocks (sharedSubstring (a :: rest)) a, ?_, ?_⟩
      · exact List.mem_map.mpr ⟨a, by simp, rfl⟩
      · rw [heq]
        exact List.mem_append_right _ (by simp)
  · intro x hx
    rw [alignStarts, sortedDedup_mem] at hx
    obtain ⟨m, hmflat, hm1⟩ := List.mem_map.mp hx
    obtain ⟨lst, hlst, hmem⟩ := List.mem_flatten.mp hmflat
    obtain ⟨arg, _, hargeq⟩ := List.mem_map.mp hlst
    obtain ⟨_, hbounds, _⟩ := Difflib.getMatchingBlocks_struct (sharedSubstring args) arg
    rw [← hargeq] at hmem
    have := (hbounds m hmem).1
    omega
  · intro arg harg m hm
    rw [alignStarts, sortedDedup_mem]
    exact List.mem_map.mpr ⟨m, List.mem_flatten.mpr
      ⟨_, List.mem_map.mpr ⟨arg, harg, rfl⟩, hm⟩, rfl⟩

theorem argM2_props (args : List Str) (hne : args ≠ []) (arg : Str) (harg : arg ∈ args)
    (hfix : rebuild (sharedSubstring args) arg = sharedSubstring args) :
    PChain arg.length 0 (argM2 args arg) ∧
    (argM2 args arg).length =
      (alignStarts args).countP
        fun x => decide (0 ≤ x ∧ x < (sharedSubstring args).length) := by
  obtain ⟨hsorted, hLmem, hle, hstarts⟩ := alignStarts_facts args hne
  obtain ⟨ms, heq, htiles⟩ := gmb_tiles_of_fix (sharedSubstring args) arg hfix
  have hglue := resplit_glue (alignStarts args) (sharedSubstring args).length arg.length
    hsorted hLmem ms 0 0 htiles
    (fun m hm => hstarts arg harg m (by rw [heq]; exact List.mem_append_left _ hm))
    (Nat.zero_le _)
  have hsent : ((alignStarts args).zip ((alignStarts args).tail ++
      [(sharedSubstring args).length])).filterMap
      (tileSel (sharedSubstring args).length 0 arg.length) = [] := by
    rw [List.filterMap_eq_nil_iff]
    intro p _
    rcases p with ⟨x, y⟩
    rw [tileSel_eval, if_neg (by omega)]
  have hm2 : argM2 args arg = ms.flatMap fun t =>
      ((alignStarts args).zip ((alignStarts args).tail ++
        [(sharedSubstring args).length])).filterMap (tileSel t.1 t.2.2 t.2.1) := by
    rw [argM2, heq]
    simp only [List.flatMap_append, List.flatMap_cons, List.flatMap_nil, List.append_nil]
    rw [hsent, List.append_nil]
  rw [hm2]
  exact hglue

theorem argRow_length (args : List Str) (hne : args ≠ []) (arg : Str) (harg : arg ∈ args)
    (hfix : rebuild (sharedSubstring args) arg = sharedSubstring args) :
    (argRow args arg).length = 2 * ((alignStarts args).countP
      fun x => decide (0 ≤ x ∧ x < (sharedSubstring args).length)) + 1 := by
  rw [argRow, rowOf_length, (argM2_props args hne arg harg hfix).2]

theorem flatten_comp_filter (i : Nat) :
    ∀ rows : List (List Str),
    (((rows.filter fun row => row.any fun b => !b.isEmpty).map
        fun row => row.getD i []).flatten)
      = (rows.map fun row => row.getD i []).flatten := by
  intro rows
  induction rows with
  | nil => rfl
  | cons r rest ih =>
    rw [List.filter_cons]
    split_ifs with h
    · rw [List.map_cons, List.map_cons, List.flatten_cons, List.flatten_cons, ih]
    · rw [List.map_cons, List.flatten_cons, ih]
      have hr : r.getD i [] = [] := by
        rcases Nat.lt_or_ge i r.length with hi | hi
        · have hmem : r.getD i [] ∈ r := by
            rw [List.getD_eq_getElem r [] hi]
            exact List.getElem_mem hi
          by_contra hcne
          apply h
          rw [List.any_eq_true]
          refine ⟨r.getD i [], hmem, ?_⟩
          simp only [Bool.not_eq_true']
          cases hie : (r.getD i []).isEmpty with
          | false => rfl
          | true => exact absurd (List.isEmpty_iff.mp hie) hcne
        · exact List.getD_eq_default r [] hi
      rw [hr, List.nil_append]

theorem filterMap_get_eq_map (t : Nat) :
    ∀ (rows : List (List Str)), (∀ r ∈ rows, t < r.length) →
    rows.filterMap (fun r => r.get? t) = rows.map fun r => r.getD t [] := by
  intro rows
  induction rows with
  | nil => intro _; rfl
  | cons r rest ih =>
    intro hlen
    have ht := hlen r (by simp)
    have hsome : r.get? t = some (r.getD t []) := by
      rw [List.get?_eq_getElem?, List.getElem?_eq_getElem ht, List.getD_eq_getElem r [] ht]
    rw [List.filterMap_cons, hsome, List.map_cons, ih (fun z hz => hlen z (by simp [hz]))]

theorem map_getD_range (l : List Str) :
    (List.range l.length).map (fun t => l.getD t []) = l := by
  apply List.ext_getElem
  · rw [List.length_map, List.length_range]
  · intro n h1 h2
    rw [List.getElem_map, List.getElem_range]
    exact List.getD_eq_getElem l [] h2

theorem getD_map_getD (i t : Nat) (rows : List (List Str)) (hi : i < rows.length) :
    (rows.map fun r => r.getD t []).getD i [] = (rows.getD i []).getD t [] := by
  rw [List.getD_eq_getElem (rows.map fun r => r.getD t []) []
      (by rw [List.length_map]; exact hi),
    List.getElem_map, List.getD_eq_getElem rows [] hi]

set_option maxHeartbeats 2000000 in
/-- **C1.** For every non-empty sequence of input strings, concatenating the
`i`-th component of every block returned by `align`, in order, reconstructs
the `i`-th input string exactly, for every input index `i`. -/
theorem C1_align_reconstructs_inputs (args : List Str) (hne : args ≠ []) :
    ∀ i < args.length,
      ((align args).map fun row => row.getD i []).flatten = args.getD i [] := by
  intro i hi
  have hfixall : ∀ arg ∈ args, rebuild (sharedSubstring args) arg = sharedSubstring args := by
    intro arg harg
    have h1 : onePass (List.insertionSort (· ≤ ·) args) (sharedSubstring args)
        = sharedSubstring args := by
      rw [sharedSubstring]
      exact ssLoop_fix _ _ _ (Nat.lt_succ_self _)
    exact onePass_fix_each _ _ h1 arg ((List.perm_insertionSort _ _).mem_iff.mpr harg)
  have harg : args.getD i [] ∈ args := by
    rw [List.getD_eq_getElem args [] hi]
    exact List.getElem_mem hi
  have hrowlen : ∀ r ∈ args.map fun arg => argRow args arg,
      r.length = 2 * ((alignStarts args).countP
        fun x => decide (0 ≤ x ∧ x < (sharedSubstring args).length)) + 1 := by
    intro r hr
    obtain ⟨arg, harg', hargeq⟩ := List.mem_map.mp hr
    rw [← hargeq]
    exact argRow_length args hne arg harg' (hfixall arg harg')
  have hrowsne : (args.map fun arg => argRow args arg) ≠ [] := by
    intro habs
    exact hne (List.map_eq_nil_iff.mp habs)
  rw [align_eq, flatten_comp_filter,
    pyZip_rect (2 * ((alignStarts args).countP
      fun x => decide (0 ≤ x ∧ x < (sharedSubstring args).length)) + 1)
      (args.map fun arg => argRow args arg) hrowsne hrowlen,
    List.map_map]
  have hirows : i < (args.map fun arg => argRow args arg).length := by
    rw [List.length_map]
    exact hi
  have hcongr : (List.range (2 * ((alignStarts args).countP
        fun x => decide (0 ≤ x ∧ x < (sharedSubstring args).length)) + 1)).map
        ((fun row => row.getD i []) ∘
          (fun t => (args.map fun arg => argRow args arg).filterMap fun r => r.get? t))
      = (List.range (2 * ((alignStarts args).countP
        fun x => decide (0 ≤ x ∧ x < (sharedSubstring args).length)) + 1)).map
        (fun t => ((args.map fun arg => argRow args arg).getD i []).getD t []) := by
    apply List.map_congr_left
    intro t ht
    rw [List.mem_range] at ht
    show ((args.map fun arg => argRow args arg).filterMap fun r => r.get? t).getD i []
      = ((args.map fun arg => argRow args arg).getD i []).getD t []
    rw [filterMap_get_eq_map t _ (fun r hr => by rw [hrowlen r hr]; omega)]
    exact getD_map_getD i t _ hirows
  rw [hcongr]
  have hrowI : (args.map fun arg => argRow args arg).getD i []
      = argRow args (args.getD i []) := by
    rw [List.getD_eq_getElem _ [] hirows, List.getElem_map, List.getD_eq_getElem args [] hi]
  rw [hrowI]
  have hlenrow : (argRow args (args.getD i [])).length
      = 2 * ((alignStarts args).countP
        fun x => decide (0 ≤ x ∧ x < (sharedSubstring args).length)) + 1 :=
    argRow_length args hne _ harg (hfixall _ harg)
  rw [← hlenrow, map_getD_range, argRow]
  exact rowOf_flatten _ _ (argM2_props args hne _ harg (hfixall _ harg)).1

/-- Witness for C1 at the concrete inputs `"ab"`, `"b"`. -/
theorem C1_witness :
    (["ab".data, "b".data] : List Str) ≠ [] ∧
    ∀ i < (["ab".data, "b".data] : List Str).length,
      ((align ["ab".data, "b".data]).map fun row => row.getD i []).flatten
        = ["ab".data, "b".data].getD i [] :=
  ⟨by decide, C1_align_reconstructs_inputs ["ab".data, "b".data] (by decide)⟩
